import Mathlib

/-!
Verification of the stout protobuf codec
(`src/3rdparty/libprocess/3rdparty/stout/include/stout/protobuf.hpp`):

* the framed record stream `protobuf::write` / `protobuf::read` (length
  prefixed frames over a file descriptor, lines 50-213 of the source);
* the Message to Document converter `JSON::Protobuf` (lines 504-651);
* the Document to Message converter `internal::Parser` / `internal::parse` /
  `protobuf::parse` (lines 244-494).

The JSON document model (`JValue`) mirrors stout's `JSON::Value` variant.
`JSON::Number` holds a C++ `double`; we represent the exact value of a
finite binary64 number by the integer `scaled` with value
`scaled * 2 ^ (-1074)` (every finite double is such a multiple).  Every
place the C++ code converts a value across a numeric type
(`JSON::Number(int64_t)`, `static_cast<float>`, `static_cast<int64_t>`
and so on) is modelled by an explicit, executable integer rounding or
truncation function defined below, faithful to IEEE-754
round-to-nearest-even at the corresponding precision.
-/

set_option maxRecDepth 16000

namespace StoutPB

/-! ## Binary floating point values and rounding -/

/-- The exact value of a finite IEEE-754 binary64 (`double`): the real
number `scaled * 2 ^ (-1074)`.  (Infinities and NaN never arise in the
code paths the claims exercise: the converters only copy or convert
values already held in fields or documents.) -/
structure F64 where
  scaled : ℤ
  deriving DecidableEq, Repr

/-- Fuel-driven base-2 logarithm on `ℕ` (structural recursion, so the
kernel can evaluate it on literals; with fuel at least `n` it satisfies
`2 ^ (log2fuel fuel n) ≤ n < 2 ^ (log2fuel fuel n + 1)` for `1 ≤ n`). -/
def log2fuel : ℕ → ℕ → ℕ
  | 0, _ => 0
  | fuel + 1, n =>
    if 2 ^ 64 ≤ n then log2fuel fuel (n / 2 ^ 64) + 64
    else if 2 ≤ n then log2fuel fuel (n / 2) + 1
    else 0

/-- `⌊log₂ n⌋` for `1 ≤ n` (and `0` at `0`). -/
def nlog2 (n : ℕ) : ℕ := log2fuel n n

/-- Round the integer `n` to the nearest multiple of `2 ^ k`, ties to
even, returning the multiple's significand (the result stands for
`rndI n k * 2 ^ k`). -/
def rndI (n : ℤ) (k : ℕ) : ℤ :=
  let d : ℤ := ((2 ^ k : ℕ) : ℤ)
  let q : ℤ := n.fdiv d
  let r : ℤ := n - q * d
  if 2 * r < d then q
  else if d < 2 * r then q + 1
  else if q % 2 = 0 then q else q + 1

/-- Round an integer to a `prec`-bit significand (round-to-nearest-even):
the exact semantics of converting a wide integer to a binary floating
point format whose significand holds `prec` bits. -/
def roundSig (prec : ℕ) (n : ℤ) : ℤ :=
  if n.natAbs ≤ 2 ^ prec then n
  else
    let k : ℕ := nlog2 n.natAbs - (prec - 1)
    rndI n k * ((2 ^ k : ℕ) : ℤ)

/-- The implicit `int64_t → double` (or `uint64_t → double`) conversion
performed by the `JSON::Number(double)` constructor when handed a 64-bit
integer: round to the 53-bit significand of binary64.  (The result is far
below the binary64 overflow threshold for any 64-bit input.) -/
def intToDouble (n : ℤ) : F64 := ⟨roundSig 53 n * ((2 ^ 1074 : ℕ) : ℤ)⟩

/-- The exact value of the double `x` with everything below `2 ^ (-1074 + k)`
cut: helper exponent for binary32 rounding.  For `x ≠ 0`,
`f32exp x = max 925 (nlog2 |scaled| - 23)`, i.e. the granularity exponent
`max (-149) (⌊log₂ |x|⌋ - 23)` shifted into the `2 ^ (-1074)` scale. -/
def f32exp (x : F64) : ℕ := max 925 (nlog2 x.scaled.natAbs - 23)

/-- `static_cast<float>` of a double: round to IEEE-754 binary32
(round-to-nearest-even, subnormals included; an overflowing value keeps
its unbounded rounded magnitude, a range no theorem exercises). -/
def roundF32 (x : F64) : F64 :=
  if x.scaled = 0 then ⟨0⟩
  else
    let k : ℕ := f32exp x
    ⟨rndI x.scaled k * ((2 ^ k : ℕ) : ℤ)⟩

/-- `static_cast` from `double` to a 64/32-bit integer type truncates
toward zero (the value is assumed in range; out-of-range conversions are
undefined behaviour in C++ and are not exercised by any theorem). -/
def truncF64 (x : F64) : ℤ := x.scaled.tdiv ((2 ^ 1074 : ℕ) : ℤ)

/-- Fuel-driven count of trailing zero bits of a natural number. -/
def tzfuel : ℕ → ℕ → ℕ
  | 0, _ => 0
  | fuel + 1, n =>
    if n ≠ 0 ∧ n % 2 ^ 64 = 0 then tzfuel fuel (n / 2 ^ 64) + 64
    else if n ≠ 0 ∧ n % 2 = 0 then tzfuel fuel (n / 2) + 1
    else 0

/-- Trailing zero bits of `n` (for `n ≠ 0`). -/
def ntz (n : ℕ) : ℕ := tzfuel n n

/-- Executable test that the double `x` is exactly representable as an
IEEE-754 binary32 value (finite or, above the binary32 range, the
unbounded extension used by `roundF32`): its scaled integer is
`m * 2 ^ t` with `m` odd, `|m| < 2 ^ 24` and `t ≥ 925`. -/
def isRepr32 (x : F64) : Bool :=
  x.scaled = 0 ∨
    (let n : ℕ := x.scaled.natAbs
     let t : ℕ := ntz n
     925 ≤ t ∧ n / 2 ^ t < 2 ^ 24)

/-! ## The JSON document model

Stout `JSON::Value` (`boost::variant` over Object / Array / String /
Number / Boolean / Null).  `num` holds the `double` of `JSON::Number`.
`JSON::Object` keeps a `std::map`; we model its contents as the
association list of its (unique-keyed) entries, and an array as the list
of its elements — both lists are part of one mutual inductive family so
that every function over documents is structural (kernel-evaluable). -/

mutual
inductive JValue where
  | obj (pairs : JPairs)
  | arr (elems : JValues)
  | str (s : String)
  | num (v : F64)
  | boolean (b : Bool)
  | null
  deriving DecidableEq
inductive JPairs where
  | nil
  | cons (key : String) (value : JValue) (rest : JPairs)
  deriving DecidableEq
inductive JValues where
  | nil
  | cons (head : JValue) (rest : JValues)
  deriving DecidableEq
end

def JValues.ofList : List JValue → JValues
  | [] => JValues.nil
  | v :: rest => JValues.cons v (JValues.ofList rest)

def JPairs.ofList : List (String × JValue) → JPairs
  | [] => JPairs.nil
  | (k, v) :: rest => JPairs.cons k v (JPairs.ofList rest)

def JValues.append : JValues → JValues → JValues
  | JValues.nil, ws => ws
  | JValues.cons v rest, ws => JValues.cons v (JValues.append rest ws)

/-- An array-of-arrays: each element list wrapped as a `JValue.arr`. -/
def arrsOf : List JValues → JValues
  | [] => JValues.nil
  | vs :: rest => JValues.cons (JValue.arr vs) (arrsOf rest)

/-- The concatenation of the element lists. -/
def joinAll : List JValues → JValues
  | [] => JValues.nil
  | vs :: rest => JValues.append vs (joinAll rest)

/-- Key lookup in the association list of a `JValue.obj` (the observable
content of the C++ `std::map<std::string, JSON::Value>`). -/
def jlookup : JPairs → String → Option JValue
  | JPairs.nil, _ => Option.none
  | JPairs.cons k v rest, key =>
      if k = key then Option.some v else jlookup rest key

/-! ## The protobuf reflection model

`google::protobuf::FieldDescriptor::Type`, labels, descriptors and the
reflection-visible state of a message instance.  A message is a list of
per-field states parallel to its descriptor's field list; the typed
reflection getters/setters (`GetInt32`, `SetString`, `AddMessage`, ...)
used by the converters become operations on those states. -/

inductive FieldType where
  | TYPE_DOUBLE | TYPE_FLOAT
  | TYPE_INT64 | TYPE_SINT64 | TYPE_SFIXED64
  | TYPE_UINT64 | TYPE_FIXED64
  | TYPE_INT32 | TYPE_SINT32 | TYPE_SFIXED32
  | TYPE_UINT32 | TYPE_FIXED32
  | TYPE_BOOL | TYPE_STRING | TYPE_BYTES
  | TYPE_MESSAGE | TYPE_ENUM | TYPE_GROUP
  deriving DecidableEq, Repr

inductive FieldLabel where
  | LABEL_OPTIONAL | LABEL_REQUIRED | LABEL_REPEATED
  deriving DecidableEq, Repr

/-- A scalar value as held by a message field (the reflection getters
return exactly these).  Doubles and floats carry their exact `F64` value
(a float field's value is always binary32-representable, see `wfValue`);
an enum value is identified by its `EnumValueDescriptor` name, the only
attribute this codec reads. -/
inductive PScalar where
  | sDouble (v : F64)
  | sFloat (v : F64)
  | sInt64 (v : ℤ)
  | sUInt64 (v : ℕ)
  | sInt32 (v : ℤ)
  | sUInt32 (v : ℕ)
  | sBool (b : Bool)
  | sString (s : String)
  | sEnum (name : String)
  deriving DecidableEq, Repr

mutual
/-- `google::protobuf::Descriptor`: an ordered list of field descriptors. -/
inductive Descriptor where
  | mk (fields : FieldDescrs)
  deriving DecidableEq
inductive FieldDescrs where
  | nil
  | cons (f : FieldDescr) (rest : FieldDescrs)
  deriving DecidableEq
/-- `google::protobuf::FieldDescriptor`: name, type tag, label, the enum
type's value names (for `TYPE_ENUM`), the nested message descriptor (for
`TYPE_MESSAGE` / `TYPE_GROUP`; a placeholder elsewhere), and the declared
default (`has_default_value` / `default_value_*`). -/
inductive FieldDescr where
  | mk (name : String) (typ : FieldType) (label : FieldLabel)
      (enumValues : List String) (subDesc : Descriptor)
      (hasDefault : Bool) (defaultV : PScalar)
  deriving DecidableEq
end

def FieldDescrs.ofList : List FieldDescr → FieldDescrs
  | [] => FieldDescrs.nil
  | f :: rest => FieldDescrs.cons f (FieldDescrs.ofList rest)

def Descriptor.fields : Descriptor → FieldDescrs
  | .mk fs => fs

def FieldDescr.name : FieldDescr → String
  | .mk nm _ _ _ _ _ _ => nm

def FieldDescr.typ : FieldDescr → FieldType
  | .mk _ t _ _ _ _ _ => t

def FieldDescr.label : FieldDescr → FieldLabel
  | .mk _ _ l _ _ _ _ => l

def FieldDescr.enumValues : FieldDescr → List String
  | .mk _ _ _ evs _ _ _ => evs

def FieldDescr.subDesc : FieldDescr → Descriptor
  | .mk _ _ _ _ sub _ _ => sub

def FieldDescr.hasDefault : FieldDescr → Bool
  | .mk _ _ _ _ _ hd _ => hd

def FieldDescr.defaultV : FieldDescr → PScalar
  | .mk _ _ _ _ _ _ dv => dv

/-- `field->is_repeated()`. -/
def FieldDescr.isRep (fd : FieldDescr) : Bool :=
  fd.label = FieldLabel.LABEL_REPEATED

def FieldDescrs.get? : FieldDescrs → ℕ → Option FieldDescr
  | FieldDescrs.nil, _ => Option.none
  | FieldDescrs.cons f _, 0 => Option.some f
  | FieldDescrs.cons _ rest, n + 1 => FieldDescrs.get? rest n

/-- The field names, in declaration order. -/
def FieldDescrs.names : FieldDescrs → List String
  | FieldDescrs.nil => []
  | FieldDescrs.cons f rest => f.name :: FieldDescrs.names rest

/-- `Descriptor::FindFieldByName`, as the index of the (first) field of
that name. -/
def findFieldIdx : FieldDescrs → String → Option ℕ
  | FieldDescrs.nil, _ => Option.none
  | FieldDescrs.cons f rest, nm =>
      if f.name = nm then Option.some 0
      else (findFieldIdx rest nm).map (· + 1)

mutual
/-- A value held by one slot of a field: a scalar or a nested message. -/
inductive PValue where
  | sc (s : PScalar)
  | msg (m : PMessage)
  deriving DecidableEq
/-- The reflection-visible state of a message instance: one state per
descriptor field, in descriptor order. -/
inductive PMessage where
  | mk (fields : PFields)
  deriving DecidableEq
inductive PFields where
  | nil
  | cons (f : PField) (rest : PFields)
  deriving DecidableEq
/-- The state of one field: unset, set (singular), or the element list of
a repeated field. -/
inductive PField where
  | unset
  | single (v : PValue)
  | rep (vs : PValues)
  deriving DecidableEq
inductive PValues where
  | nil
  | cons (head : PValue) (rest : PValues)
  deriving DecidableEq
end

def PValues.ofList : List PValue → PValues
  | [] => PValues.nil
  | v :: rest => PValues.cons v (PValues.ofList rest)

def PFields.ofList : List PField → PFields
  | [] => PFields.nil
  | f :: rest => PFields.cons f (PFields.ofList rest)

def PMessage.fields : PMessage → PFields
  | .mk fs => fs

def PFields.get? : PFields → ℕ → Option PField
  | PFields.nil, _ => Option.none
  | PFields.cons f _, 0 => Option.some f
  | PFields.cons _ rest, n + 1 => PFields.get? rest n

/-- Replace the `n`-th field state. -/
def PFields.set : PFields → ℕ → PField → PFields
  | PFields.nil, _, _ => PFields.nil
  | PFields.cons _ rest, 0, g => PFields.cons g rest
  | PFields.cons f rest, n + 1, g => PFields.cons f (PFields.set rest n g)

/-- Append one element to a repeated field's element list (`Add*`). -/
def PValues.snoc : PValues → PValue → PValues
  | PValues.nil, v => PValues.cons v PValues.nil
  | PValues.cons w rest, v => PValues.cons w (PValues.snoc rest v)

/-- Number of elements (`Reflection::FieldSize`). -/
def PValues.length : PValues → ℕ
  | PValues.nil => 0
  | PValues.cons _ rest => PValues.length rest + 1

/-- List concatenation on element lists. -/
def PValues.append : PValues → PValues → PValues
  | PValues.nil, ws => ws
  | PValues.cons v rest, ws => PValues.cons v (PValues.append rest ws)

/-- The state a freshly constructed message gives each field. -/
def initFields : FieldDescrs → PFields
  | FieldDescrs.nil => PFields.nil
  | FieldDescrs.cons fd rest =>
      PFields.cons (if fd.isRep then PField.rep PValues.nil else PField.unset)
        (initFields rest)

/-- A freshly constructed message instance (all singular fields unset,
all repeated fields empty), as produced by `T message;` or by protobuf's
`Reflection::AddMessage` / `MutableMessage` on an unset field. -/
def emptyMsg (d : Descriptor) : PMessage := ⟨initFields d.fields⟩

/-- The element list of a repeated field's state. -/
def repList : PField → PValues
  | .rep vs => vs
  | _ => PValues.nil

/-! ## The Message to Document converter (`JSON::Protobuf`, lines 504-651)

The constructor's two type switches — over `GetRepeated*` for a repeated
field's elements (lines 532-588) and over `Get*` for a singular field
(lines 592-648) — are case-for-case identical in the value they emit, so
both are embedded as the one `scalarToJ` / `fieldValueToJ` applied per
value.  `Option` models the `ABORT` on `TYPE_GROUP` / unhandled tags (the
process terminates, no document is produced); `Option.none` is also
returned on a value whose shape contradicts the field's type, which the
C++ reflection getters make impossible (see `wfValue`). -/

/-- The scalar rows of the emission type switch (lines 532-588 /
592-648): the JSON value emitted for a scalar read from a field of the
given type.  Values of 64-bit (and, harmlessly exact, 32-bit) integer
fields pass through the `JSON::Number(double)` constructor, an
`int64_t → double` / `uint64_t → double` conversion (`intToDouble`);
a float is widened to double exactly. -/
def scalarToJ (fd : FieldDescr) (s : PScalar) : Option JValue :=
  match fd.typ, s with
  | .TYPE_DOUBLE, .sDouble x => Option.some (JValue.num x)
  | .TYPE_FLOAT, .sFloat x => Option.some (JValue.num x)
  | .TYPE_INT64, .sInt64 n => Option.some (JValue.num (intToDouble n))
  | .TYPE_SINT64, .sInt64 n => Option.some (JValue.num (intToDouble n))
  | .TYPE_SFIXED64, .sInt64 n => Option.some (JValue.num (intToDouble n))
  | .TYPE_UINT64, .sUInt64 n => Option.some (JValue.num (intToDouble n))
  | .TYPE_FIXED64, .sUInt64 n => Option.some (JValue.num (intToDouble n))
  | .TYPE_INT32, .sInt32 n => Option.some (JValue.num (intToDouble n))
  | .TYPE_SINT32, .sInt32 n => Option.some (JValue.num (intToDouble n))
  | .TYPE_SFIXED32, .sInt32 n => Option.some (JValue.num (intToDouble n))
  | .TYPE_UINT32, .sUInt32 n => Option.some (JValue.num (intToDouble n))
  | .TYPE_FIXED32, .sUInt32 n => Option.some (JValue.num (intToDouble n))
  | .TYPE_BOOL, .sBool b => Option.some (JValue.boolean b)
  | .TYPE_STRING, .sString str => Option.some (JValue.str str)
  | .TYPE_BYTES, .sString str => Option.some (JValue.str str)
  | .TYPE_ENUM, .sEnum nm => Option.some (JValue.str nm)
  | _, _ => Option.none

mutual
/-- One emitted JSON value for one field slot, switching on
`field->type()` exactly as lines 532-588 / 592-648 do: the scalar rows
are `scalarToJ`; a `TYPE_MESSAGE` slot recurses into the nested message
(`Protobuf(GetMessage(...))` / `Protobuf(GetRepeatedMessage(...))`). -/
def fieldValueToJ (fd : FieldDescr) : PValue → Option JValue
  | .sc s => scalarToJ fd s
  | .msg (.mk mfs) =>
      match fd.typ with
      | .TYPE_MESSAGE => (fieldsToJ fd.subDesc.fields mfs).map JValue.obj
      | _ => Option.none

/-- The per-element loop of a repeated field (lines 531-589): convert
every element independently, in index order. -/
def repToJ (fd : FieldDescr) : PValues → Option JValues
  | PValues.nil => Option.some JValues.nil
  | PValues.cons v rest =>
      match fieldValueToJ fd v, repToJ fd rest with
      | Option.some j, Option.some js => Option.some (JValues.cons j js)
      | _, _ => Option.none

/-- The field walk of the constructor: the inclusion test of lines
514-526 (a repeated field iff `FieldSize > 0`; a singular field iff
`HasField` or `has_default_value`, the getter then reading the declared
default when unset) fused with the emission loop of lines 528-650.
Output pairs are in descriptor field order (the C++ `std::map` orders by
key; only lookup-observable content is modelled). -/
def fieldsToJ : FieldDescrs → PFields → Option JPairs
  | FieldDescrs.nil, _ => Option.some JPairs.nil
  | FieldDescrs.cons _ _, PFields.nil => Option.some JPairs.nil
  | FieldDescrs.cons fd fds, PFields.cons pf pfs =>
      let rest := fieldsToJ fds pfs
      if fd.isRep then
        match pf with
        | .rep vs =>
            if 0 < vs.length then
              match repToJ fd vs, rest with
              | Option.some js, Option.some r =>
                  Option.some (JPairs.cons fd.name (JValue.arr js) r)
              | _, _ => Option.none
            else rest
        | _ => Option.none
      else
        match pf with
        | .single v =>
            match fieldValueToJ fd v, rest with
            | Option.some j, Option.some r =>
                Option.some (JPairs.cons fd.name j r)
            | _, _ => Option.none
        | .unset =>
            if fd.hasDefault then
              match scalarToJ fd fd.defaultV, rest with
              | Option.some j, Option.some r =>
                  Option.some (JPairs.cons fd.name j r)
              | _, _ => Option.none
            else rest
        | .rep _ => Option.none
end

/-- `JSON::Protobuf(message)` followed by the `operator Object()`
conversion: the produced Document (`Option.none` models the `ABORT`
branch). -/
def toDocument (d : Descriptor) (m : PMessage) : Option JValue :=
  (fieldsToJ d.fields m.fields).map JValue.obj

/-- The document entry one field state produces (the inclusion rule of
lines 514-526 applied to one field): `Option.none` when the field is
skipped. -/
def entryJ (fd : FieldDescr) (pf : PField) : Option JValue :=
  if fd.isRep then
    match pf with
    | PField.rep vs =>
        if 0 < vs.length then (repToJ fd vs).map JValue.arr else Option.none
    | _ => Option.none
  else
    match pf with
    | PField.single v => fieldValueToJ fd v
    | PField.unset =>
        if fd.hasDefault then scalarToJ fd fd.defaultV else Option.none
    | PField.rep _ => Option.none

/-! ## The Document to Message converter
(`internal::Parser` / `internal::parse` / `protobuf::parse`,
lines 244-494)

The C++ visitor mutates the message in place and `internal::parse`
fail-fasts on the first error, keeping every mutation already applied, so
each function returns its updated state *and* the first error (if any).
Note the faithful modelling of line 262/264: the `Try` result of the
recursive `parse` into a message-typed field is **discarded**, so an
error inside a nested object does not propagate out of the visitor. -/

/-- `SetX` / `AddX` on one field state: append for a repeated field,
overwrite for a singular one.  (On a repeated field the C++ state is
always a — possibly empty — element list; `repList` reads junk shapes,
which the reflection API makes unreachable, as empty.) -/
def setOrAdd (fd : FieldDescr) (pf : PField) (s : PScalar) : PField :=
  if fd.isRep then PField.rep ((repList pf).snoc (PValue.sc s))
  else PField.single (PValue.sc s)

/-- `Reflection::MutableMessage`: the submessage held by a singular
message field, or a fresh default instance when the field is unset. -/
def mutableSub (fd : FieldDescr) (pf : PField) : PMessage :=
  match pf with
  | .single (.msg m) => m
  | _ => emptyMsg fd.subDesc

mutual
/-- `internal::Parser`'s `operator()` dispatch on the dynamic kind of one
JSON value against one field (lines 257-434), returning the updated field
state and the first error. -/
def applyValue (fd : FieldDescr) (pf : PField) : JValue → PField × Option String
  | .obj o =>
      -- lines 257-272
      (match fd.typ with
       | .TYPE_MESSAGE =>
          if fd.isRep then
            -- AddMessage then parse; the parse result is discarded (line 262)
            (PField.rep ((repList pf).snoc
              (PValue.msg (parseFields fd.subDesc (emptyMsg fd.subDesc) o).1)),
             Option.none)
          else
            -- MutableMessage merges into the existing submessage (line 264)
            (PField.single (PValue.msg
              (parseFields fd.subDesc (mutableSub fd pf) o).1),
             Option.none)
       | _ =>
          (pf, Option.some ("Not expecting a JSON object for field '" ++
                fd.name ++ "'")))
  | .str str =>
      -- lines 274-305
      (match fd.typ with
       | .TYPE_STRING => (setOrAdd fd pf (PScalar.sString str), Option.none)
       | .TYPE_BYTES => (setOrAdd fd pf (PScalar.sString str), Option.none)
       | .TYPE_ENUM =>
          -- FindValueByName on the field's enum type (lines 285-298)
          if str ∈ fd.enumValues then
            (setOrAdd fd pf (PScalar.sEnum str), Option.none)
          else
            (pf, Option.some ("Failed to find enum for '" ++ str ++ "'"))
       | _ =>
          (pf, Option.some ("Not expecting a JSON string for field '" ++
                fd.name ++ "'")))
  | .num x =>
      -- lines 307-393; each case narrows the double with a static_cast
      (match fd.typ with
       | .TYPE_DOUBLE => (setOrAdd fd pf (PScalar.sDouble x), Option.none)
       | .TYPE_FLOAT =>
          (setOrAdd fd pf (PScalar.sFloat (roundF32 x)), Option.none)
       | .TYPE_INT64 =>
          (setOrAdd fd pf (PScalar.sInt64 (truncF64 x)), Option.none)
       | .TYPE_SINT64 =>
          (setOrAdd fd pf (PScalar.sInt64 (truncF64 x)), Option.none)
       | .TYPE_SFIXED64 =>
          (setOrAdd fd pf (PScalar.sInt64 (truncF64 x)), Option.none)
       | .TYPE_UINT64 =>
          (setOrAdd fd pf (PScalar.sUInt64 (truncF64 x).toNat), Option.none)
       | .TYPE_FIXED64 =>
          (setOrAdd fd pf (PScalar.sUInt64 (truncF64 x).toNat), Option.none)
       | .TYPE_INT32 =>
          (setOrAdd fd pf (PScalar.sInt32 (truncF64 x)), Option.none)
       | .TYPE_SINT32 =>
          (setOrAdd fd pf (PScalar.sInt32 (truncF64 x)), Option.none)
       | .TYPE_SFIXED32 =>
          (setOrAdd fd pf (PScalar.sInt32 (truncF64 x)), Option.none)
       | .TYPE_UINT32 =>
          (setOrAdd fd pf (PScalar.sUInt32 (truncF64 x).toNat), Option.none)
       | .TYPE_FIXED32 =>
          (setOrAdd fd pf (PScalar.sUInt32 (truncF64 x).toNat), Option.none)
       | _ =>
          (pf, Option.some ("Not expecting a JSON number for field '" ++
                fd.name ++ "'")))
  | .arr vs =>
      -- lines 395-412
      if fd.isRep then applyArr fd pf vs
      else
        (pf, Option.some ("Not expecting a JSON array for field '" ++
              fd.name ++ "'"))
  | .boolean b =>
      -- lines 414-429
      (match fd.typ with
       | .TYPE_BOOL => (setOrAdd fd pf (PScalar.sBool b), Option.none)
       | _ =>
          (pf, Option.some ("Not expecting a JSON boolean for field '" ++
                fd.name ++ "'")))
  | .null => (pf, Option.some "Not expecting a JSON null")

/-- The element loop of `operator()(const JSON::Array&)` (lines 402-409):
apply the same visitor to each element against the same field, stopping
at (and keeping the state of) the first failing element. -/
def applyArr (fd : FieldDescr) (pf : PField) : JValues → PField × Option String
  | JValues.nil => (pf, Option.none)
  | JValues.cons v rest =>
      match applyValue fd pf v with
      | (pf1, Option.some e) => (pf1, Option.some e)
      | (pf1, Option.none) => applyArr fd pf1 rest

/-- `internal::parse` (lines 443-464): for every (name, value) pair of
the object, look the field up by name — an unknown key is silently
skipped — and apply the visitor, stopping at the first error. -/
def parseFields (d : Descriptor) (m : PMessage) : JPairs → PMessage × Option String
  | JPairs.nil => (m, Option.none)
  | JPairs.cons name v rest =>
      match findFieldIdx d.fields name with
      | Option.none => parseFields d m rest
      | Option.some i =>
          let fd := (d.fields.get? i).getD (FieldDescr.mk ""
            FieldType.TYPE_GROUP FieldLabel.LABEL_OPTIONAL []
            (Descriptor.mk FieldDescrs.nil) false (PScalar.sBool false))
          let res := applyValue fd ((m.fields.get? i).getD PField.unset) v
          let m1 : PMessage := ⟨m.fields.set i res.1⟩
          match res.2 with
          | Option.some e => (m1, Option.some e)
          | Option.none => parseFields d m1 rest
end

/-! ## Initialization (the Schema Reflection Contract)

`Message::IsInitialized` and `Message::InitializationErrorString` are
protobuf library behaviour, not code of this repository.  Modelled from
the spec: "report initialization completeness", "'Initialized' is a
derived boolean (all required fields transitively set)" (spec §3, §4.2). -/

mutual
/-- Modelled from the spec: `is_initialized(msg) -> bool` over a field
list — every required field is set and every present submessage is itself
initialized, transitively. -/
def isInitFields : FieldDescrs → PFields → Bool
  | FieldDescrs.nil, _ => true
  | FieldDescrs.cons _ _, PFields.nil => true
  | FieldDescrs.cons fd fds, PFields.cons pf pfs =>
      (match pf with
       | .unset => decide (fd.label ≠ FieldLabel.LABEL_REQUIRED)
       | .single v => valueInit fd v
       | .rep vs => valuesInit fd vs) &&
      isInitFields fds pfs
def valuesInit (fd : FieldDescr) : PValues → Bool
  | PValues.nil => true
  | PValues.cons v rest => valueInit fd v && valuesInit fd rest
def valueInit (fd : FieldDescr) : PValue → Bool
  | .sc _ => true
  | .msg (.mk mfs) => isInitFields fd.subDesc.fields mfs
end

/-- Modelled from the spec: `is_initialized(msg) -> bool` — "all required
fields transitively set" (spec §3). -/
def isInit (d : Descriptor) (m : PMessage) : Bool :=
  isInitFields d.fields m.fields

/-- The names of the top-level unset required fields. -/
def missingNames : FieldDescrs → PFields → List String
  | FieldDescrs.cons fd fds, PFields.cons pf pfs =>
      (match pf with
       | PField.unset =>
          if fd.label = FieldLabel.LABEL_REQUIRED then [fd.name] else []
       | _ => []) ++ missingNames fds pfs
  | _, _ => []

/-- Modelled from the spec: `initialization_error_description(msg) ->
string` (spec §4.2) — a description of the unset required fields.  Its
exact text is opaque to every claim; only the names of the top-level
unset required fields are rendered. -/
def initErrString (d : Descriptor) (m : PMessage) : String :=
  String.intercalate ", " (missingNames d.fields m.fields)

/-- `protobuf::parse<T>` (lines 469-494): require a JSON object, parse it
into a fresh message, then require the result initialized. -/
def parseTop (d : Descriptor) (v : JValue) : Except String PMessage :=
  match v with
  | .obj pairs =>
      let res := parseFields d (emptyMsg d) pairs
      match res.2 with
      | Option.some e => Except.error e
      | Option.none =>
          if isInit d res.1 then Except.ok res.1
          else Except.error ("Missing required fields: " ++
                initErrString d res.1)
  | _ => Except.error "Expecting a JSON object"

/-! ## Well-formedness

`wfFields` states the shape invariants that the C++ reflection API
guarantees for a real message object: each field state matches its
descriptor's cardinality, each stored value matches the field's type tag
and its native width (a float field physically holds a binary32 value, a
32/64-bit integer field a value of that range), enum values name a
declared enum value.  `schemaWf` states invariants of generated protobuf
descriptors: distinct field names, defaults only on singular non-message
fields and matching the field type. -/

mutual
def wfFields : FieldDescrs → PFields → Bool
  | FieldDescrs.nil, PFields.nil => true
  | FieldDescrs.cons fd fds, PFields.cons pf pfs =>
      wfField fd pf && wfFields fds pfs
  | _, _ => false
def wfField (fd : FieldDescr) : PField → Bool
  | .unset => !fd.isRep
  | .single v => !fd.isRep && wfValue fd v
  | .rep vs => fd.isRep && wfValues fd vs
def wfValues (fd : FieldDescr) : PValues → Bool
  | PValues.nil => true
  | PValues.cons v rest => wfValue fd v && wfValues fd rest
def wfValue (fd : FieldDescr) : PValue → Bool
  | .sc s =>
      (match fd.typ, s with
       | .TYPE_DOUBLE, .sDouble _ => true
       | .TYPE_FLOAT, .sFloat x => isRepr32 x
       | .TYPE_INT64, .sInt64 n => decide (n.natAbs ≤ 2 ^ 63)
       | .TYPE_SINT64, .sInt64 n => decide (n.natAbs ≤ 2 ^ 63)
       | .TYPE_SFIXED64, .sInt64 n => decide (n.natAbs ≤ 2 ^ 63)
       | .TYPE_UINT64, .sUInt64 n => decide (n < 2 ^ 64)
       | .TYPE_FIXED64, .sUInt64 n => decide (n < 2 ^ 64)
       | .TYPE_INT32, .sInt32 n => decide (n.natAbs ≤ 2 ^ 31)
       | .TYPE_SINT32, .sInt32 n => decide (n.natAbs ≤ 2 ^ 31)
       | .TYPE_SFIXED32, .sInt32 n => decide (n.natAbs ≤ 2 ^ 31)
       | .TYPE_UINT32, .sUInt32 n => decide (n < 2 ^ 32)
       | .TYPE_FIXED32, .sUInt32 n => decide (n < 2 ^ 32)
       | .TYPE_BOOL, .sBool _ => true
       | .TYPE_STRING, .sString _ => true
       | .TYPE_BYTES, .sString _ => true
       | .TYPE_ENUM, .sEnum nm => decide (nm ∈ fd.enumValues)
       | _, _ => false)
  | .msg (.mk mfs) =>
      (match fd.typ with
       | .TYPE_MESSAGE => wfFields fd.subDesc.fields mfs
       | _ => false)
end

def wfMsg (d : Descriptor) (m : PMessage) : Bool :=
  wfFields d.fields m.fields

/-- A declared default value matches the field's type (and width). -/
def defaultMatches (fd : FieldDescr) : Bool :=
  match fd.typ, fd.defaultV with
  | .TYPE_DOUBLE, .sDouble _ => true
  | .TYPE_FLOAT, .sFloat x => isRepr32 x
  | .TYPE_INT64, .sInt64 n => decide (n.natAbs ≤ 2 ^ 63)
  | .TYPE_SINT64, .sInt64 n => decide (n.natAbs ≤ 2 ^ 63)
  | .TYPE_SFIXED64, .sInt64 n => decide (n.natAbs ≤ 2 ^ 63)
  | .TYPE_UINT64, .sUInt64 n => decide (n < 2 ^ 64)
  | .TYPE_FIXED64, .sUInt64 n => decide (n < 2 ^ 64)
  | .TYPE_INT32, .sInt32 n => decide (n.natAbs ≤ 2 ^ 31)
  | .TYPE_SINT32, .sInt32 n => decide (n.natAbs ≤ 2 ^ 31)
  | .TYPE_SFIXED32, .sInt32 n => decide (n.natAbs ≤ 2 ^ 31)
  | .TYPE_UINT32, .sUInt32 n => decide (n < 2 ^ 32)
  | .TYPE_FIXED32, .sUInt32 n => decide (n < 2 ^ 32)
  | .TYPE_BOOL, .sBool _ => true
  | .TYPE_STRING, .sString _ => true
  | .TYPE_BYTES, .sString _ => true
  | .TYPE_ENUM, .sEnum nm => decide (nm ∈ fd.enumValues)
  | _, _ => false

mutual
def schemaWf : Descriptor → Bool
  | .mk fs => decide (FieldDescrs.names fs).Nodup && schemaWfFields fs
def schemaWfFields : FieldDescrs → Bool
  | FieldDescrs.nil => true
  | FieldDescrs.cons fd rest => schemaWfField fd && schemaWfFields rest
def schemaWfField : FieldDescr → Bool
  | .mk nm t l evs sub hd dv =>
      (if hd
       then !(FieldDescr.mk nm t l evs sub hd dv).isRep &&
         defaultMatches (FieldDescr.mk nm t l evs sub hd dv)
       else true) &&
      (match t with
       | .TYPE_MESSAGE => !hd && schemaWf sub
       | .TYPE_GROUP => !hd
       | _ => true)
end

/-- All 64-bit integer values the Message to Document conversion would
materialize as a `JSON::Number` — stored values and the declared defaults
of unset singular fields, transitively — have magnitude at most `2 ^ 53`
(the exactly-representable integer range of a double). -/
def smallScalar : PScalar → Bool
  | .sInt64 n => decide (n.natAbs ≤ 2 ^ 53)
  | .sUInt64 n => decide (n ≤ 2 ^ 53)
  | _ => true

mutual
def small64Fields : FieldDescrs → PFields → Bool
  | FieldDescrs.cons fd fds, PFields.cons pf pfs =>
      small64Field fd pf && small64Fields fds pfs
  | _, _ => true
def small64Field (fd : FieldDescr) : PField → Bool
  | .unset => if fd.hasDefault && !fd.isRep then smallScalar fd.defaultV else true
  | .single v => small64Value fd v
  | .rep vs => small64Values fd vs
def small64Values (fd : FieldDescr) : PValues → Bool
  | PValues.nil => true
  | PValues.cons v rest => small64Value fd v && small64Values fd rest
def small64Value (fd : FieldDescr) : PValue → Bool
  | .sc s => smallScalar s
  | .msg (.mk mfs) => small64Fields fd.subDesc.fields mfs
end

def small64 (d : Descriptor) (m : PMessage) : Bool :=
  small64Fields d.fields m.fields

/-! ## Normalization and field equality

`normFields fds pfs` is the field list the Document to Message converter
reconstructs from `fieldsToJ fds pfs` (under the hypotheses of the
round-trip theorem): the same states with every unset singular field that
declares a default explicitly set to that default, transitively.
`obsEqFields` is the formalization of the spec's "field-equal": for each
field, the reflection-getter-observable value is the same — a singular
scalar field compares the value its getter returns (the stored value, or
the declared/type default when unset), a repeated field compares its
element lists, a message field compares set-ness and then the submessages
recursively. -/

mutual
def normFields : FieldDescrs → PFields → PFields
  | FieldDescrs.cons fd fds, PFields.cons pf pfs =>
      PFields.cons (normField fd pf) (normFields fds pfs)
  | _, pfs => pfs
def normField (fd : FieldDescr) : PField → PField
  | .unset =>
      if !fd.isRep && fd.hasDefault then PField.single (PValue.sc fd.defaultV)
      else PField.unset
  | .single v => PField.single (normValue fd v)
  | .rep vs => PField.rep (normValues fd vs)
def normValues (fd : FieldDescr) : PValues → PValues
  | PValues.nil => PValues.nil
  | PValues.cons v rest => PValues.cons (normValue fd v) (normValues fd rest)
def normValue (fd : FieldDescr) : PValue → PValue
  | .sc s => PValue.sc s
  | .msg (.mk mfs) => PValue.msg ⟨normFields fd.subDesc.fields mfs⟩
end

def normMsg (d : Descriptor) (m : PMessage) : PMessage :=
  ⟨normFields d.fields m.fields⟩

/-- The field-state walk the Document to Message converter performs on the
document of the schema suffix `fds` starting at absolute index `i`: set
each position to the normalized state, in order.  (`parseFields` produces
exactly this under the round-trip hypotheses.) -/
def setNormFrom : PFields → ℕ → FieldDescrs → PFields → PFields
  | ms, _, FieldDescrs.nil, _ => ms
  | ms, _, _, PFields.nil => ms
  | ms, i, FieldDescrs.cons fd fds, PFields.cons pf pfs =>
      setNormFrom (PFields.set ms i (normField fd pf)) (i + 1) fds pfs

/-- The type-zero default a reflection getter returns for an unset field
with no declared default. -/
def typeZero (fd : FieldDescr) : PScalar :=
  match fd.typ with
  | .TYPE_DOUBLE => PScalar.sDouble ⟨0⟩
  | .TYPE_FLOAT => PScalar.sFloat ⟨0⟩
  | .TYPE_INT64 => PScalar.sInt64 0
  | .TYPE_SINT64 => PScalar.sInt64 0
  | .TYPE_SFIXED64 => PScalar.sInt64 0
  | .TYPE_UINT64 => PScalar.sUInt64 0
  | .TYPE_FIXED64 => PScalar.sUInt64 0
  | .TYPE_INT32 => PScalar.sInt32 0
  | .TYPE_SINT32 => PScalar.sInt32 0
  | .TYPE_SFIXED32 => PScalar.sInt32 0
  | .TYPE_UINT32 => PScalar.sUInt32 0
  | .TYPE_FIXED32 => PScalar.sUInt32 0
  | .TYPE_BOOL => PScalar.sBool false
  | .TYPE_STRING => PScalar.sString ""
  | .TYPE_BYTES => PScalar.sString ""
  | .TYPE_ENUM => PScalar.sEnum (fd.enumValues.headD "")
  | _ => PScalar.sBool false

/-- What a singular scalar getter returns: the stored value, or the
declared default, or the type zero. -/
def getScalar (fd : FieldDescr) (pf : PField) : PScalar :=
  match pf with
  | .single (.sc s) => s
  | _ => if fd.hasDefault then fd.defaultV else typeZero fd

mutual
def obsEqFields : FieldDescrs → PFields → PFields → Bool
  | FieldDescrs.nil, _, _ => true
  | FieldDescrs.cons _ _, PFields.nil, PFields.nil => true
  | FieldDescrs.cons fd fds, PFields.cons pf pfs, PFields.cons qf qfs =>
      obsEqField fd pf qf && obsEqFields fds pfs qfs
  | _, _, _ => false
termination_by structural fds pfs qfs => pfs
def obsEqField (fd : FieldDescr) : PField → PField → Bool
  | .rep vs, .rep ws =>
      if fd.isRep then obsEqValues fd vs ws else false
  | .unset, .unset =>
      if fd.isRep then false
      else
        (match fd.typ with
         | .TYPE_MESSAGE => true
         | .TYPE_GROUP => true
         | _ => decide (getScalar fd PField.unset = getScalar fd PField.unset))
  | .single v, .single w =>
      if fd.isRep then false
      else
        (match fd.typ with
         | .TYPE_MESSAGE => obsEqValue fd v w
         | .TYPE_GROUP => obsEqValue fd v w
         | _ => decide (getScalar fd (PField.single v) =
                  getScalar fd (PField.single w)))
  | .unset, .single w =>
      if fd.isRep then false
      else
        (match fd.typ with
         | .TYPE_MESSAGE => false
         | .TYPE_GROUP => false
         | _ => decide (getScalar fd PField.unset =
                  getScalar fd (PField.single w)))
  | .single v, .unset =>
      if fd.isRep then false
      else
        (match fd.typ with
         | .TYPE_MESSAGE => false
         | .TYPE_GROUP => false
         | _ => decide (getScalar fd (PField.single v) =
                  getScalar fd PField.unset))
  | _, _ => false
termination_by structural pf qf => pf
def obsEqValues (fd : FieldDescr) : PValues → PValues → Bool
  | PValues.nil, PValues.nil => true
  | PValues.cons v vs, PValues.cons w ws =>
      obsEqValue fd v w && obsEqValues fd vs ws
  | _, _ => false
termination_by structural vs ws => vs
def obsEqValue (fd : FieldDescr) : PValue → PValue → Bool
  | .sc a, .sc b => decide (a = b)
  | .msg (.mk ma), .msg (.mk mb) => obsEqFields fd.subDesc.fields ma mb
  | _, _ => false
termination_by structural v w => v
end

/-- The spec's "field-equal" between two instances of one schema: two
message-field states of different set-ness are counted unequal (protobuf
has-bit semantics; message fields declare no defaults), a singular scalar
field compares getter values (so default materialization is
equality-preserving), repeated fields compare element lists. -/
def obsEqMsg (d : Descriptor) (m1 m2 : PMessage) : Bool :=
  obsEqFields d.fields m1.fields m2.fields

/-! ## The framed record stream (`protobuf::write` / `protobuf::read`,
lines 50-213)

The byte-oriented handle and its primitives `os::read`, `os::write` and
`lseek` are external collaborators (stout `os.hpp` / POSIX, not among the
staged sources).  Modelled from the spec (§6 "Consumed I/O primitives",
§4.5): a seekable byte handle with a cursor; `os::read(fd, K)` returns an
error on I/O failure, the end-of-stream marker when zero bytes remain,
and otherwise up to `K` bytes, advancing the cursor by what it read
(fewer than `K` only at EOF).  I/O errors are injected through the
handle's `inject` schedule: one entry per `os::read` call, `some k`
failing that call after it consumed `k` of the available bytes. -/

structure Handle where
  bytes : List ℕ
  pos : ℕ
  inject : List (Option ℕ)

inductive OsRead where
  | err (e : String)
  | eof
  | ok (data : List ℕ)

/-- Modelled from the spec: `os::read(fd, n)`. -/
def osRead (h : Handle) (n : ℕ) : OsRead × Handle :=
  let rest := h.inject.tail
  match h.inject.headD Option.none with
  | Option.some k =>
      let adv := min k (min n (h.bytes.length - h.pos))
      (OsRead.err "io error",
       { h with pos := h.pos + adv, inject := rest })
  | Option.none =>
      if n = 0 then (OsRead.ok [], { h with inject := rest })
      else
        let avail := h.bytes.length - h.pos
        if avail = 0 then (OsRead.eof, { h with inject := rest })
        else
          let m := min n avail
          (OsRead.ok ((h.bytes.drop h.pos).take m),
           { h with pos := h.pos + m, inject := rest })

/-- `lseek(fd, 0, SEEK_CUR)` — the current offset (always succeeds on
the valid seekable descriptors modelled here; the `lseek` failure branch
of lines 141-143 returns before any read and leaves the cursor as is). -/
def lseekCur (h : Handle) : ℕ := h.pos

/-- `lseek(fd, offset, SEEK_SET)`. -/
def lseekSet (h : Handle) (off : ℕ) : Handle := { h with pos := off }

/-- `Result<T>` of `protobuf::read`: a message, `None()` (end of
stream), or an error. -/
inductive ReadResult (T : Type) where
  | ok (t : T)
  | none
  | err (e : String)
  deriving DecidableEq, Repr

/-- The `memcpy` of 4 bytes into a `uint32_t` (lines 169-170): the
writer's native byte order, little-endian on the platforms this code
targets (x86 / ARM). -/
def decodeSize (bs : List ℕ) : ℕ :=
  match bs with
  | [b0, b1, b2, b3] => b0 + 256 * (b1 + 256 * (b2 + 256 * b3))
  | _ => 0

/-- The `(char*) &size` little-endian encoding of the 4-byte length
(lines 58-59). -/
def encodeSize (n : ℕ) : List ℕ :=
  [n % 256, n / 256 % 256, n / 2 ^ 16 % 256, n / 2 ^ 24 % 256]

/-- `protobuf::read<T>(fd, ignorePartial, undoFailed)` (lines 130-213).
`des` stands for `T::ParseFromZeroCopyStream` — deserialization of a
payload, an external capability of the message type (`Option.none` =
parse failure). -/
def readPB {T : Type} (des : List ℕ → Option T) (fd : Handle)
    (ignorePartial : Bool) (undoFailed : Bool) : ReadResult T × Handle :=
  -- lines 136-144: if undoFailed, save the offset
  let offset := lseekCur fd
  let r1 := osRead fd 4
  match r1.1 with
  | OsRead.err e =>
      let h := if undoFailed then lseekSet r1.2 offset else r1.2
      (ReadResult.err ("Failed to read size: " ++ e), h)
  | OsRead.eof => (ReadResult.none, r1.2) -- no more protobufs to read
  | OsRead.ok sizeBytes =>
      if sizeBytes.length < 4 then
        -- hit EOF unexpectedly (lines 156-167)
        let h := if undoFailed then lseekSet r1.2 offset else r1.2
        if ignorePartial then (ReadResult.none, h)
        else
          (ReadResult.err
            "Failed to read size: hit EOF unexpectedly, possible corruption",
           h)
      else
        let size := decodeSize sizeBytes
        let r2 := osRead r1.2 size
        match r2.1 with
        | OsRead.err e =>
            let h := if undoFailed then lseekSet r2.2 offset else r2.2
            (ReadResult.err ("Failed to read message: " ++ e), h)
        | OsRead.eof =>
            let h := if undoFailed then lseekSet r2.2 offset else r2.2
            if ignorePartial then (ReadResult.none, h)
            else
              (ReadResult.err ("Failed to read message of size " ++
                toString size ++
                " bytes: hit EOF unexpectedly, possible corruption"), h)
        | OsRead.ok data =>
            if data.length < size then
              let h := if undoFailed then lseekSet r2.2 offset else r2.2
              if ignorePartial then (ReadResult.none, h)
              else
                (ReadResult.err ("Failed to read message of size " ++
                  toString size ++
                  " bytes: hit EOF unexpectedly, possible corruption"), h)
            else
              match des data with
              | Option.none =>
                  let h := if undoFailed then lseekSet r2.2 offset else r2.2
                  (ReadResult.err "Failed to deserialize message", h)
              | Option.some message => (ReadResult.ok message, r2.2)

/-- A write-only handle (`O_WRONLY|O_CREAT|O_TRUNC` or append mode):
written bytes accumulate at the end.  `winject` schedules an I/O failure
per write step (`os::write` of the size, then the serialize-to-fd). -/
structure WHandle where
  bytes : List ℕ
  winject : List Bool

/-- Modelled from the spec: `os::write(fd, data)` — appends, or fails
with the scheduled I/O error (a failed step is modelled as writing
nothing; the caller-visible partial-frame hazard of a *later* failing
step is preserved by the step structure of `writePB`). -/
def osWrite (h : WHandle) (data : List ℕ) : Option String × WHandle :=
  let rest := h.winject.tail
  if h.winject.headD false then
    (Option.some "io error", { h with winject := rest })
  else
    (Option.none, { bytes := h.bytes ++ data, winject := rest })

/-- `protobuf::write(fd, message)` (lines 50-71).  `ser` stands for the
external serialization capability (`message.ByteSize()` is its length,
`SerializeToFileDescriptor` writes it); the serialize step reuses the
write-failure schedule. -/
def writePB (d : Descriptor) (ser : PMessage → List ℕ) (fd : WHandle)
    (message : PMessage) : Option String × WHandle :=
  if ¬ isInit d message then
    (Option.some (initErrString d message ++ " is required but not initialized"),
     fd)
  else
    -- first write the size of the protobuf (lines 57-64)
    let payload := ser message
    let w1 := osWrite fd (encodeSize payload.length)
    match w1.1 with
    | Option.some e => (Option.some ("Failed to write size: " ++ e), w1.2)
    | Option.none =>
        -- SerializeToFileDescriptor (lines 66-68)
        let w2 := osWrite w1.2 payload
        match w2.1 with
        | Option.some _ => (Option.some "Failed to write/serialize message", w2.2)
        | Option.none => (Option.none, w2.2)

/-! ## Concrete schemas and instances used by witnesses and counterexamples -/

/-- A descriptor placeholder for non-message fields. -/
def noSub : Descriptor := Descriptor.mk FieldDescrs.nil

/-- Schema `{ required string name }`. -/
def dReq : Descriptor :=
  Descriptor.mk (FieldDescrs.ofList [FieldDescr.mk "name"
    FieldType.TYPE_STRING FieldLabel.LABEL_REQUIRED [] noSub false
    (PScalar.sBool false)])

/-- Schema `{ optional enum color }` with the single enum value `RED`. -/
def dEnum : Descriptor :=
  Descriptor.mk (FieldDescrs.ofList [FieldDescr.mk "color"
    FieldType.TYPE_ENUM FieldLabel.LABEL_OPTIONAL ["RED"] noSub false
    (PScalar.sBool false)])

/-- Schema `{ required int64 x }`. -/
def dI64 : Descriptor :=
  Descriptor.mk (FieldDescrs.ofList [FieldDescr.mk "x"
    FieldType.TYPE_INT64 FieldLabel.LABEL_REQUIRED [] noSub false
    (PScalar.sBool false)])

/-- An instance of `dI64` holding `2 ^ 53 + 1`, the smallest positive
`int64` that is not exactly representable as a double. -/
def mBig : PMessage :=
  ⟨PFields.ofList [PField.single (PValue.sc (PScalar.sInt64 (2 ^ 53 + 1)))]⟩

/-- The descriptor of the repeated int32 field `xs`. -/
def fdXs : FieldDescr :=
  FieldDescr.mk "xs" FieldType.TYPE_INT32 FieldLabel.LABEL_REPEATED []
    noSub false (PScalar.sBool false)

/-- Schema `{ repeated int32 xs }`. -/
def dRep : Descriptor := Descriptor.mk (FieldDescrs.ofList [fdXs])

/-- Schema `{ optional double weight [default = 1]; optional string tag }`
(`RoleInfo`-like: a declared default next to a defaultless optional). -/
def dOpt : Descriptor :=
  Descriptor.mk (FieldDescrs.ofList
    [FieldDescr.mk "weight" FieldType.TYPE_DOUBLE FieldLabel.LABEL_OPTIONAL []
       noSub true (PScalar.sDouble ⟨((2 ^ 1074 : ℕ) : ℤ)⟩),
     FieldDescr.mk "tag" FieldType.TYPE_STRING FieldLabel.LABEL_OPTIONAL []
       noSub false (PScalar.sBool false)])

/-- The all-unset instance of `dOpt`. -/
def mOpt : PMessage := ⟨PFields.ofList [PField.unset, PField.unset]⟩

/-- A mixed schema exercising scalar, repeated, nested-message and enum
fields for the round-trip witness:
`{ required string name; optional double weight [default = 1];
   repeated int32 xs; optional Sub sub { required bool b };
   optional enum color }`. -/
def dSub : Descriptor :=
  Descriptor.mk (FieldDescrs.ofList [FieldDescr.mk "b" FieldType.TYPE_BOOL
    FieldLabel.LABEL_REQUIRED [] noSub false (PScalar.sBool false)])

def dMix : Descriptor :=
  Descriptor.mk (FieldDescrs.ofList
    [FieldDescr.mk "name" FieldType.TYPE_STRING FieldLabel.LABEL_REQUIRED []
       noSub false (PScalar.sBool false),
     FieldDescr.mk "weight" FieldType.TYPE_DOUBLE FieldLabel.LABEL_OPTIONAL []
       noSub true (PScalar.sDouble ⟨((2 ^ 1074 : ℕ) : ℤ)⟩),
     FieldDescr.mk "xs" FieldType.TYPE_INT32 FieldLabel.LABEL_REPEATED []
       noSub false (PScalar.sBool false),
     FieldDescr.mk "sub" FieldType.TYPE_MESSAGE FieldLabel.LABEL_OPTIONAL []
       dSub false (PScalar.sBool false),
     FieldDescr.mk "color" FieldType.TYPE_ENUM FieldLabel.LABEL_OPTIONAL
       ["RED", "BLUE"] noSub false (PScalar.sBool false)])

/-- An instance of `dMix`: `name = "ops"`, `weight` unset (default 1),
`xs = [3, -2]`, `sub = { b = true }`, `color = BLUE`. -/
def mMix : PMessage :=
  ⟨PFields.ofList
    [PField.single (PValue.sc (PScalar.sString "ops")),
     PField.unset,
     PField.rep (PValues.ofList
       [PValue.sc (PScalar.sInt32 3), PValue.sc (PScalar.sInt32 (-2))]),
     PField.single (PValue.msg ⟨PFields.ofList
       [PField.single (PValue.sc (PScalar.sBool true))]⟩),
     PField.single (PValue.sc (PScalar.sEnum "BLUE"))]⟩

/-! # Theorems -/

deriving instance DecidableEq for Except

/-! ## Helper lemmas for the framed record stream -/

lemma osRead_run (h : Handle) (n : ℕ) (hinj : h.inject = []) (hn : n ≠ 0) :
    osRead h n =
      (if h.bytes.length - h.pos = 0 then (OsRead.eof, ⟨h.bytes, h.pos, []⟩)
       else (OsRead.ok ((h.bytes.drop h.pos).take (min n (h.bytes.length - h.pos))),
         ⟨h.bytes, h.pos + min n (h.bytes.length - h.pos), []⟩)) := by
  obtain ⟨bs, p, inj⟩ := h
  simp only at hinj
  subst hinj
  simp [osRead, hn]

/-- Any error return of `readPB` with `undoFailed = true` carries a
handle whose position is the entry position. -/
lemma readPB_err_restores {T : Type} (des : List ℕ → Option T) (h : Handle)
    (ip : Bool) (e : String) (h' : Handle)
    (heq : readPB des h ip true = (ReadResult.err e, h')) :
    h'.pos = h.pos := by
  unfold readPB at heq
  rcases h1 : osRead h 4 with ⟨r1, g1⟩
  rw [h1] at heq
  cases r1 with
  | err e1 => simp [lseekSet, lseekCur] at heq; rw [← heq.2]
  | eof => simp at heq
  | ok sizeBytes =>
    simp only at heq
    by_cases hlen : sizeBytes.length < 4
    · simp [hlen] at heq
      cases ip <;> simp_all [lseekSet, lseekCur] <;> rw [← heq.2]
    · simp [hlen] at heq
      rcases h2 : osRead g1 (decodeSize sizeBytes) with ⟨r2, g2⟩
      rw [h2] at heq
      cases r2 with
      | err e2 => simp [lseekSet, lseekCur] at heq; rw [← heq.2]
      | eof => cases ip <;> simp_all [lseekSet, lseekCur] <;> rw [← heq.2]
      | ok data =>
        simp only at heq
        by_cases hdl : data.length < decodeSize sizeBytes
        · simp [hdl] at heq
          cases ip <;> simp_all [lseekSet, lseekCur] <;> rw [← heq.2]
        · simp [hdl] at heq
          cases hdes : des data with
          | none => simp [hdes, lseekSet, lseekCur] at heq; rw [← heq.2]
          | some msg => simp [hdes] at heq

/-- Computation of `readPB` on a handle whose remaining content is a
valid 4-byte length prefix declaring more payload bytes than remain. -/
lemma read_truncated {T : Type} (des : List ℕ → Option T)
    (pre hdr payload : List ℕ) (h4 : hdr.length = 4)
    (hlt : payload.length < decodeSize hdr) (ip uf : Bool) :
    readPB des ⟨pre ++ hdr ++ payload, pre.length, []⟩ ip uf =
      ((if ip then ReadResult.none else ReadResult.err
          ("Failed to read message of size " ++ toString (decodeSize hdr) ++
            " bytes: hit EOF unexpectedly, possible corruption")),
       ⟨pre ++ hdr ++ payload,
        if uf then pre.length else pre.length + 4 + payload.length, []⟩) := by
  have hd1 : (pre ++ hdr ++ payload).drop pre.length = hdr ++ payload := by
    rw [List.append_assoc, List.drop_left]
  have ht1 : (hdr ++ payload).take 4 = hdr := by
    rw [← h4, List.take_left]
  have hlen : (pre ++ hdr ++ payload).length = pre.length + 4 + payload.length := by
    simp [h4]; omega
  have hd2 : (pre ++ hdr ++ payload).drop (pre.length + 4) = payload := by
    have h5 : pre.length + 4 = (pre ++ hdr).length := by simp [h4]
    rw [h5, List.drop_left]
  have hN : decodeSize hdr ≠ 0 := by omega
  unfold readPB
  rw [osRead_run _ 4 rfl (by omega)]
  simp only [hlen]
  have havail : pre.length + 4 + payload.length - pre.length = 4 + payload.length := by
    omega
  rw [havail]
  have h40 : ¬ (4 + payload.length = 0) := by omega
  simp only [if_neg h40]
  have hmin : min 4 (4 + payload.length) = 4 := by omega
  rw [hmin, hd1, ht1]
  simp only [h4]
  norm_num
  have hB : (pre ++ (hdr ++ payload)) = pre ++ hdr ++ payload := by
    rw [List.append_assoc]
  rw [hB]
  rw [osRead_run ⟨pre ++ hdr ++ payload, pre.length + 4, []⟩ (decodeSize hdr) rfl hN]
  simp only [hlen]
  have havail2 : pre.length + 4 + payload.length - (pre.length + 4) = payload.length := by
    omega
  rw [havail2]
  by_cases hP : payload.length = 0
  · simp only [hP, if_pos rfl]
    simp only [lseekCur, lseekSet, hP]
    cases ip <;> cases uf <;> simp
  · simp only [if_neg hP]
    have hmin2 : min (decodeSize hdr) payload.length = payload.length := by omega
    rw [hmin2, hd2, List.take_length]
    simp only [if_pos hlt, lseekCur, lseekSet]
    cases ip <;> cases uf <;> simp <;> omega

/-! ## C8 — clean EOF -/

/-- C8: for every handle positioned exactly at end-of-file (and no
injected I/O error), `protobuf::read` returns the end-of-stream marker
`None` — never an error — and leaves the handle unchanged, for all four
combinations of `ignorePartial` and `undoFailed`. -/
theorem C8_clean_eof_returns_none {T : Type} (des : List ℕ → Option T)
    (h : Handle) (hpos : h.pos = h.bytes.length) (hinj : h.inject = [])
    (ip uf : Bool) : readPB des h ip uf = (ReadResult.none, h) := by
  obtain ⟨bs, p, inj⟩ := h
  simp only at hpos hinj
  subst hpos hinj
  simp [readPB, osRead, lseekCur, lseekSet]

/-- C8 witness: a two-byte file read at position 2, all four flag
combinations. -/
theorem C8_clean_eof_returns_none_witness :
    readPB (T := ℕ) (fun _ => Option.some 0) ⟨[5, 6], 2, []⟩ false false =
        (ReadResult.none, ⟨[5, 6], 2, []⟩) ∧
    readPB (T := ℕ) (fun _ => Option.some 0) ⟨[5, 6], 2, []⟩ false true =
        (ReadResult.none, ⟨[5, 6], 2, []⟩) ∧
    readPB (T := ℕ) (fun _ => Option.some 0) ⟨[5, 6], 2, []⟩ true false =
        (ReadResult.none, ⟨[5, 6], 2, []⟩) ∧
    readPB (T := ℕ) (fun _ => Option.some 0) ⟨[5, 6], 2, []⟩ true true =
        (ReadResult.none, ⟨[5, 6], 2, []⟩) :=
  ⟨C8_clean_eof_returns_none _ _ (by rfl) (by rfl) false false,
   C8_clean_eof_returns_none _ _ (by rfl) (by rfl) false true,
   C8_clean_eof_returns_none _ _ (by rfl) (by rfl) true false,
   C8_clean_eof_returns_none _ _ (by rfl) (by rfl) true true⟩

/-! ## C2 — `undoFailed` cursor semantics -/

/-- C2: (a) whenever `protobuf::read` with `undoFailed = true` fails —
for any reason: short prefix, short payload, injected I/O error, or
deserialize failure — the returned handle's cursor equals the cursor at
entry; (b) with `undoFailed = false` a truncated-payload failure leaves
the cursor where the failed read stopped: after the 4 prefix bytes and
all the partial payload bytes it consumed. -/
theorem C2_undoFailed_restores_cursor :
    (∀ (T : Type) (des : List ℕ → Option T) (h : Handle) (ip : Bool)
       (e : String) (h' : Handle),
        readPB des h ip true = (ReadResult.err e, h') → h'.pos = h.pos) ∧
    (∀ (T : Type) (des : List ℕ → Option T) (pre hdr payload : List ℕ),
        hdr.length = 4 → payload.length < decodeSize hdr →
        (∃ e, (readPB des ⟨pre ++ hdr ++ payload, pre.length, []⟩
            false false).1 = ReadResult.err e) ∧
        (readPB des ⟨pre ++ hdr ++ payload, pre.length, []⟩
            false false).2.pos = pre.length + 4 + payload.length) := by
  constructor
  · intro T des h ip e h' heq
    exact readPB_err_restores des h ip e h' heq
  · intro T des pre hdr payload h4 hlt
    rw [read_truncated des pre hdr payload h4 hlt false false]
    exact ⟨⟨_, rfl⟩, rfl⟩

/-- C2 witness: (a) a deserialize failure on a zero-length frame with
`undoFailed = true` returns cursor 0; (b) a frame declaring 3 bytes with
only 1 present, read from position 1 with `undoFailed = false`, fails and
leaves the cursor at `1 + 4 + 1 = 6`. -/
theorem C2_undoFailed_restores_cursor_witness :
    (readPB (T := ℕ) (fun _ => Option.none) ⟨[0, 0, 0, 0], 0, []⟩
        false true).2.pos = 0 ∧
    ((∃ e, (readPB (T := ℕ) (fun _ => Option.none)
        ⟨[7, 3, 0, 0, 0, 9], 1, []⟩ false false).1 = ReadResult.err e) ∧
     (readPB (T := ℕ) (fun _ => Option.none)
        ⟨[7, 3, 0, 0, 0, 9], 1, []⟩ false false).2.pos = 6) :=
  ⟨C2_undoFailed_restores_cursor.1 ℕ (fun _ => Option.none)
      ⟨[0, 0, 0, 0], 0, []⟩ false "Failed to deserialize message" _ (by rfl),
   C2_undoFailed_restores_cursor.2 ℕ (fun _ => Option.none)
      [7] [3, 0, 0, 0] [9] (by rfl) (by decide)⟩

/-! ## C3 — truncated payload -/

/-- C3: a file whose remaining content is a valid 4-byte length prefix
declaring `N` payload bytes followed by fewer than `N` bytes: `read` with
`ignorePartial = false` returns an error (under both `undoFailed`
settings), with `undoFailed = true` the cursor is additionally restored
to the entry position, and with `ignorePartial = true` the read returns
the end-of-stream marker `None` instead of an error. -/
theorem C3_truncated_payload {T : Type} (des : List ℕ → Option T)
    (pre hdr payload : List ℕ) (h4 : hdr.length = 4)
    (hlt : payload.length < decodeSize hdr) :
    (∀ uf, ∃ e, (readPB des ⟨pre ++ hdr ++ payload, pre.length, []⟩
        false uf).1 = ReadResult.err e) ∧
    (readPB des ⟨pre ++ hdr ++ payload, pre.length, []⟩
        false true).2.pos = pre.length ∧
    (∀ uf, (readPB des ⟨pre ++ hdr ++ payload, pre.length, []⟩
        true uf).1 = ReadResult.none) := by
  refine ⟨fun uf => ?_, ?_, fun uf => ?_⟩
  · rw [read_truncated des pre hdr payload h4 hlt false uf]
    exact ⟨_, rfl⟩
  · rw [read_truncated des pre hdr payload h4 hlt false true]
    simp
  · rw [read_truncated des pre hdr payload h4 hlt true uf]
    simp

/-- C3 witness: prefix declaring 3 payload bytes, 1 byte present. -/
theorem C3_truncated_payload_witness :
    (∀ uf, ∃ e, (readPB (T := ℕ) (fun _ => Option.none)
        ⟨[7, 3, 0, 0, 0, 9], 1, []⟩ false uf).1 = ReadResult.err e) ∧
    (readPB (T := ℕ) (fun _ => Option.none)
        ⟨[7, 3, 0, 0, 0, 9], 1, []⟩ false true).2.pos = 1 ∧
    (∀ uf, (readPB (T := ℕ) (fun _ => Option.none)
        ⟨[7, 3, 0, 0, 0, 9], 1, []⟩ true uf).1 = ReadResult.none) :=
  C3_truncated_payload (fun _ => Option.none) [7] [3, 0, 0, 0] [9]
    (by rfl) (by decide)

/-! ## C4 — write rejects uninitialized messages -/

/-- C4: for every message that is not initialized, `protobuf::write`
returns the "required but not initialized" error immediately, carrying
the initialization error description, and the handle is returned exactly
as it was — no bytes are written. -/
theorem C4_write_uninitialized (d : Descriptor) (ser : PMessage → List ℕ)
    (fd : WHandle) (m : PMessage) (h : isInit d m = false) :
    writePB d ser fd m =
      (Option.some (initErrString d m ++ " is required but not initialized"),
       fd) := by
  unfold writePB
  simp [h]

/-- C4 witness: the all-unset instance of `{ required string name }`. -/
theorem C4_write_uninitialized_witness :
    writePB dReq (fun _ => [1, 2, 3]) ⟨[9], []⟩ ⟨PFields.ofList [PField.unset]⟩ =
      (Option.some (initErrString dReq ⟨PFields.ofList [PField.unset]⟩ ++
        " is required but not initialized"), ⟨[9], []⟩) :=
  C4_write_uninitialized dReq (fun _ => [1, 2, 3]) ⟨[9], []⟩
    ⟨PFields.ofList [PField.unset]⟩ (by decide)

/-! ## C7 — unresolved enum name -/

/-- C7 counterexample: the claim states the error carries *both* the
field name and the unmatched string.  Converting `{"color": "BLUE"}`
against `{ optional enum color }` (whose enum declares only `RED`)
produces exactly `Failed to find enum for 'BLUE'` (line 290 of the
source), a string that does not contain the field name `color`. -/
theorem C7_counterexample_error_lacks_field_name :
    parseTop dEnum (JValue.obj (JPairs.ofList [("color", JValue.str "BLUE")])) =
      Except.error "Failed to find enum for 'BLUE'" ∧
    ¬ List.IsInfix "color".data "Failed to find enum for 'BLUE'".data := by
  constructor
  · decide
  · decide

/-- C7 (amended): for every Document String applied to an enum field
whose enum type declares no value of that name, the converter returns an
error that carries the unmatched string — but not the field's name
(the error is exactly `"Failed to find enum for '" ++ s ++ "'"`). -/
theorem C7_enum_error_carries_string (fd : FieldDescr) (pf : PField)
    (s : String) (ht : fd.typ = FieldType.TYPE_ENUM)
    (hs : s ∉ fd.enumValues) :
    applyValue fd pf (JValue.str s) =
      (pf, Option.some ("Failed to find enum for '" ++ s ++ "'")) := by
  simp [applyValue, ht, hs]

/-- C7 witness: the `color` field of `dEnum` with the string `BLUE`. -/
theorem C7_enum_error_carries_string_witness :
    applyValue (FieldDescr.mk "color" FieldType.TYPE_ENUM
        FieldLabel.LABEL_OPTIONAL ["RED"] noSub false (PScalar.sBool false))
      PField.unset (JValue.str "BLUE") =
      (PField.unset, Option.some "Failed to find enum for 'BLUE'") :=
  C7_enum_error_carries_string _ PField.unset "BLUE" (by rfl) (by decide)

/-! ## C10 — bare values accepted for repeated fields -/

/-- C10: a repeated field accepts a bare (non-Array) Document value of a
kind compatible with its wire type — a String for string/bytes (and a
declared name for enum), a Number for every numeric type, a Boolean for
bool, an Object for message — and appends it as a single element with no
error; an Array is not required. -/
theorem C10_repeated_accepts_bare (fd : FieldDescr) (pf : PField)
    (hrep : fd.isRep = true) :
    (∀ s, fd.typ = FieldType.TYPE_STRING ∨ fd.typ = FieldType.TYPE_BYTES →
      applyValue fd pf (JValue.str s) =
        (PField.rep ((repList pf).snoc (PValue.sc (PScalar.sString s))),
         Option.none)) ∧
    (∀ s, fd.typ = FieldType.TYPE_ENUM → s ∈ fd.enumValues →
      applyValue fd pf (JValue.str s) =
        (PField.rep ((repList pf).snoc (PValue.sc (PScalar.sEnum s))),
         Option.none)) ∧
    (∀ x, fd.typ ∈ [FieldType.TYPE_DOUBLE, FieldType.TYPE_FLOAT,
        FieldType.TYPE_INT64, FieldType.TYPE_SINT64, FieldType.TYPE_SFIXED64,
        FieldType.TYPE_UINT64, FieldType.TYPE_FIXED64, FieldType.TYPE_INT32,
        FieldType.TYPE_SINT32, FieldType.TYPE_SFIXED32, FieldType.TYPE_UINT32,
        FieldType.TYPE_FIXED32] →
      ∃ s', applyValue fd pf (JValue.num x) =
        (PField.rep ((repList pf).snoc (PValue.sc s')), Option.none)) ∧
    (∀ b, fd.typ = FieldType.TYPE_BOOL →
      applyValue fd pf (JValue.boolean b) =
        (PField.rep ((repList pf).snoc (PValue.sc (PScalar.sBool b))),
         Option.none)) ∧
    (∀ o, fd.typ = FieldType.TYPE_MESSAGE →
      applyValue fd pf (JValue.obj o) =
        (PField.rep ((repList pf).snoc
          (PValue.msg (parseFields fd.subDesc (emptyMsg fd.subDesc) o).1)),
         Option.none)) := by
  refine ⟨fun s hst => ?_, fun s hse hmem => ?_, fun x hmem => ?_,
    fun b hb => ?_, fun o ho => ?_⟩
  · rcases hst with h | h <;> simp [applyValue, setOrAdd, h, hrep]
  · simp [applyValue, setOrAdd, hse, hmem, hrep]
  · simp only [List.mem_cons, List.not_mem_nil, or_false] at hmem
    rcases hmem with h | h | h | h | h | h | h | h | h | h | h | h <;>
      exact ⟨_, by simp [applyValue, setOrAdd, hrep, h]; rfl⟩
  · simp [applyValue, setOrAdd, hb, hrep]
  · simp [applyValue, setOrAdd, ho, hrep]

/-- C10 witness: the repeated int32 field `xs` with a bare number. -/
theorem C10_repeated_accepts_bare_witness :
    ∃ s', applyValue fdXs (PField.rep PValues.nil)
        (JValue.num (intToDouble 5)) =
      (PField.rep ((repList (PField.rep PValues.nil)).snoc (PValue.sc s')),
       Option.none) :=
  (C10_repeated_accepts_bare fdXs (PField.rep PValues.nil) (by rfl)).2.2.1
    (intToDouble 5) (by decide)

/-! ## C9 — array elements recurse on the same field -/

/-- Splitting the element loop of `operator()(const JSON::Array&)`
across an append. -/
lemma applyArr_append (fd : FieldDescr) (pf : PField) (xs ys : JValues) :
    applyArr fd pf (xs.append ys) =
      (match applyArr fd pf xs with
       | (pf1, Option.some e) => (pf1, Option.some e)
       | (pf1, Option.none) => applyArr fd pf1 ys) := by
  match xs with
  | JValues.nil => simp [applyArr, JValues.append]
  | JValues.cons v vs =>
      rw [JValues.append]
      rw [applyArr, applyArr]
      rcases h : applyValue fd pf v with ⟨pf1, e⟩
      cases e with
      | none => simp only; rw [applyArr_append fd pf1 vs ys]
      | some err => simp only

/-- C9 (amended): when the converter applies an Array to a repeated
field, each element is converted by recursively applying the same
per-value dispatch against the same field; consequently a nested
array-of-arrays element is *not* rejected — the inner array passes the
same repeated-cardinality check and its elements are flattened into the
same repeated field. -/
theorem C9_array_recursion_flattens :
    (∀ (fd : FieldDescr) (pf : PField) (v : JValue) (vs : JValues),
      fd.isRep = true →
      applyValue fd pf (JValue.arr (JValues.cons v vs)) =
        (match applyValue fd pf v with
         | (pf1, Option.some e) => (pf1, Option.some e)
         | (pf1, Option.none) => applyValue fd pf1 (JValue.arr vs))) ∧
    (∀ (fd : FieldDescr) (pf : PField) (vss : List JValues),
      fd.isRep = true →
      applyValue fd pf (JValue.arr (arrsOf vss)) =
        applyValue fd pf (JValue.arr (joinAll vss))) := by
  constructor
  · intro fd pf v vs hrep
    rw [applyValue]
    simp only [hrep, if_pos]
    rw [applyArr]
    rcases h : applyValue fd pf v with ⟨pf1, e⟩
    cases e with
    | none => simp only [applyValue, hrep, if_pos]
    | some err => simp only
  · intro fd pf vss hrep
    induction vss generalizing pf with
    | nil => simp [arrsOf, joinAll]
    | cons v0 rest ih =>
        rw [arrsOf, joinAll]
        rw [applyValue, applyValue]
        simp only [hrep, if_pos]
        rw [applyArr, applyValue]
        simp only [hrep, if_pos]
        rw [applyArr_append]
        rcases h : applyArr fd pf v0 with ⟨pf1, e⟩
        cases e with
        | none =>
            simp only
            have := ih pf1
            rw [applyValue, applyValue] at this
            simp only [hrep, if_pos] at this
            exact this
        | some err => simp only

/-- C9 counterexample: the claim's second half states a nested
array-of-arrays element is rejected by the per-element type check.
Converting `{"xs": [[1, 2], [3]]}` against `{ repeated int32 xs }`
*succeeds* and flattens the nesting into `xs = [1, 2, 3]`. -/
theorem C9_counterexample_nested_array_accepted :
    parseTop dRep (JValue.obj (JPairs.ofList [("xs", JValue.arr
        (JValues.ofList
          [JValue.arr (JValues.ofList [JValue.num (intToDouble 1),
            JValue.num (intToDouble 2)]),
           JValue.arr (JValues.ofList [JValue.num (intToDouble 3)])]))])) =
      Except.ok ⟨PFields.ofList [PField.rep (PValues.ofList
        [PValue.sc (PScalar.sInt32 1), PValue.sc (PScalar.sInt32 2),
         PValue.sc (PScalar.sInt32 3)])]⟩ := by
  decide

/-- C9 witness: one application of each part on the repeated int32
field. -/
theorem C9_array_recursion_flattens_witness :
    (applyValue fdXs (PField.rep PValues.nil)
        (JValue.arr (JValues.cons (JValue.num (intToDouble 1)) JValues.nil)) =
      (match applyValue fdXs (PField.rep PValues.nil)
          (JValue.num (intToDouble 1)) with
       | (pf1, Option.some e) => (pf1, Option.some e)
       | (pf1, Option.none) => applyValue fdXs pf1 (JValue.arr JValues.nil))) ∧
    (applyValue fdXs (PField.rep PValues.nil)
        (JValue.arr (arrsOf [JValues.ofList [JValue.num (intToDouble 1)],
          JValues.ofList [JValue.num (intToDouble 2)]])) =
      applyValue fdXs (PField.rep PValues.nil)
        (JValue.arr (joinAll [JValues.ofList [JValue.num (intToDouble 1)],
          JValues.ofList [JValue.num (intToDouble 2)]]))) :=
  ⟨C9_array_recursion_flattens.1 fdXs (PField.rep PValues.nil) _ JValues.nil
     (by rfl),
   C9_array_recursion_flattens.2 fdXs (PField.rep PValues.nil) _ (by rfl)⟩

/-! Lookup lemmas for the produced document (claims C5 and C6) -/

lemma names_mem_of_get (fds : FieldDescrs) (n : ℕ) (fd : FieldDescr)
    (h : fds.get? n = Option.some fd) : fd.name ∈ fds.names := by
  match fds, n with
  | FieldDescrs.nil, _ => simp [FieldDescrs.get?] at h
  | FieldDescrs.cons f rest, 0 =>
      rw [FieldDescrs.get?] at h
      rw [FieldDescrs.names]
      simp at h
      simp [h]
  | FieldDescrs.cons f rest, Nat.succ n =>
      rw [FieldDescrs.get?] at h
      rw [FieldDescrs.names]
      exact List.mem_cons_of_mem _ (names_mem_of_get rest n fd h)

lemma jlookup_skip (fds : FieldDescrs) (pfs : PFields) (doc : JPairs)
    (k : String) (hdoc : fieldsToJ fds pfs = Option.some doc)
    (hk : k ∉ fds.names) : jlookup doc k = Option.none := by
  match fds, pfs with
  | FieldDescrs.nil, pfs =>
      cases pfs with
      | nil => injection hdoc with h; subst h; rfl
      | cons pf pfs => injection hdoc with h; subst h; rfl
  | FieldDescrs.cons fd fds, PFields.nil =>
      injection hdoc with h
      subst h
      rfl
  | FieldDescrs.cons fd fds, PFields.cons pf pfs =>
      rw [FieldDescrs.names] at hk
      simp only [List.mem_cons, not_or] at hk
      rw [fieldsToJ.eq_def] at hdoc
      simp only at hdoc
      by_cases hrep : fd.isRep = true
      · rw [if_pos hrep] at hdoc
        match pf with
        | PField.unset => simp at hdoc
        | PField.single _ => simp at hdoc
        | PField.rep vs =>
            simp only at hdoc
            by_cases hlen : 0 < vs.length
            · rw [if_pos hlen] at hdoc
              rcases h1 : repToJ fd vs with _ | js <;> rw [h1] at hdoc <;>
                rcases h2 : fieldsToJ fds pfs with _ | r <;> rw [h2] at hdoc <;>
                simp at hdoc
              subst hdoc
              rw [jlookup, if_neg (by exact fun hcontra => hk.1 hcontra.symm)]
              exact jlookup_skip fds pfs r k h2 hk.2
            · rw [if_neg hlen] at hdoc
              exact jlookup_skip fds pfs doc k hdoc hk.2
      · rw [if_neg hrep] at hdoc
        match pf with
        | PField.rep _ => simp at hdoc
        | PField.single v =>
            simp only at hdoc
            rcases h1 : fieldValueToJ fd v with _ | j <;> rw [h1] at hdoc <;>
              rcases h2 : fieldsToJ fds pfs with _ | r <;> rw [h2] at hdoc <;>
              simp at hdoc
            subst hdoc
            rw [jlookup, if_neg (by exact fun hcontra => hk.1 hcontra.symm)]
            exact jlookup_skip fds pfs r k h2 hk.2
        | PField.unset =>
            simp only at hdoc
            by_cases hdef : fd.hasDefault = true
            · rw [if_pos hdef] at hdoc
              rcases h1 : scalarToJ fd fd.defaultV with _ | j <;>
                rw [h1] at hdoc <;>
                rcases h2 : fieldsToJ fds pfs with _ | r <;> rw [h2] at hdoc <;>
                simp at hdoc
              subst hdoc
              rw [jlookup, if_neg (by exact fun hcontra => hk.1 hcontra.symm)]
              exact jlookup_skip fds pfs r k h2 hk.2
            · rw [if_neg hdef] at hdoc
              exact jlookup_skip fds pfs doc k hdoc hk.2

/-- Where each field of the message surfaces in the produced document:
the `i`-th field's name maps to exactly the value its inclusion rule
emits, or to nothing when the rule skips the field. -/
lemma fieldsToJ_lookup (fds : FieldDescrs) (pfs : PFields) (doc : JPairs)
    (i : ℕ) (fd : FieldDescr) (pf : PField)
    (hdoc : fieldsToJ fds pfs = Option.some doc)
    (hnd : (FieldDescrs.names fds).Nodup)
    (hfd : fds.get? i = Option.some fd)
    (hpf : pfs.get? i = Option.some pf) :
    jlookup doc fd.name = entryJ fd pf := by
  unfold entryJ
  match fds, pfs, i with
  | FieldDescrs.nil, _, _ => rw [FieldDescrs.get?] at hfd; exact absurd hfd (by simp)
  | FieldDescrs.cons fd0 fds, PFields.nil, _ =>
      rw [PFields.get?] at hpf; exact absurd hpf (by simp)
  | FieldDescrs.cons fd0 fds, PFields.cons pf0 pfs, 0 =>
      rw [FieldDescrs.get?] at hfd
      rw [PFields.get?] at hpf
      have hfd' : fd0 = fd := by injection hfd
      have hpf' : pf0 = pf := by injection hpf
      subst hfd' hpf'
      rw [FieldDescrs.names] at hnd
      have hk : fd0.name ∉ FieldDescrs.names fds := (List.nodup_cons.mp hnd).1
      rw [fieldsToJ.eq_def] at hdoc
      simp only at hdoc
      by_cases hrep : fd0.isRep = true
      · rw [if_pos hrep] at hdoc
        rw [if_pos hrep]
        match pf0 with
        | PField.unset => simp at hdoc
        | PField.single _ => simp at hdoc
        | PField.rep vs =>
            simp only at hdoc ⊢
            by_cases hlen : 0 < vs.length
            · rw [if_pos hlen] at hdoc
              rw [if_pos hlen]
              rcases h1 : repToJ fd0 vs with _ | js <;> rw [h1] at hdoc <;>
                rcases h2 : fieldsToJ fds pfs with _ | r <;> rw [h2] at hdoc <;>
                simp at hdoc
              subst hdoc
              rw [jlookup, if_pos rfl]
              rfl
            · rw [if_neg hlen] at hdoc
              rw [if_neg hlen]
              exact jlookup_skip fds pfs doc fd0.name hdoc hk
      · rw [if_neg hrep] at hdoc
        rw [if_neg hrep]
        match pf0 with
        | PField.rep _ => simp at hdoc
        | PField.single v =>
            simp only at hdoc ⊢
            rcases h1 : fieldValueToJ fd0 v with _ | j <;> rw [h1] at hdoc <;>
              rcases h2 : fieldsToJ fds pfs with _ | r <;> rw [h2] at hdoc <;>
              simp at hdoc
            subst hdoc
            rw [jlookup, if_pos rfl]
        | PField.unset =>
            simp only at hdoc ⊢
            by_cases hdef : fd0.hasDefault = true
            · rw [if_pos hdef] at hdoc
              rw [if_pos hdef]
              rcases h1 : scalarToJ fd0 fd0.defaultV with _ | j <;>
                rw [h1] at hdoc <;>
                rcases h2 : fieldsToJ fds pfs with _ | r <;> rw [h2] at hdoc <;>
                simp at hdoc
              subst hdoc
              rw [jlookup, if_pos rfl]
            · rw [if_neg hdef] at hdoc
              rw [if_neg hdef]
              exact jlookup_skip fds pfs doc fd0.name hdoc hk
  | FieldDescrs.cons fd0 fds, PFields.cons pf0 pfs, Nat.succ n =>
      rw [FieldDescrs.get?] at hfd
      rw [PFields.get?] at hpf
      rw [FieldDescrs.names] at hnd
      have hnd' := (List.nodup_cons.mp hnd).2
      have hne : fd0.name ≠ fd.name := by
        intro hcontra
        exact (List.nodup_cons.mp hnd).1
          (hcontra ▸ names_mem_of_get fds n fd hfd)
      rw [fieldsToJ.eq_def] at hdoc
      simp only at hdoc
      by_cases hrep : fd0.isRep = true
      · rw [if_pos hrep] at hdoc
        match pf0 with
        | PField.unset => simp at hdoc
        | PField.single _ => simp at hdoc
        | PField.rep vs =>
            simp only at hdoc
            by_cases hlen : 0 < vs.length
            · rw [if_pos hlen] at hdoc
              rcases h1 : repToJ fd0 vs with _ | js <;> rw [h1] at hdoc <;>
                rcases h2 : fieldsToJ fds pfs with _ | r <;> rw [h2] at hdoc <;>
                simp at hdoc
              subst hdoc
              rw [jlookup, if_neg hne]
              exact fieldsToJ_lookup fds pfs r n fd pf h2 hnd' hfd hpf
            · rw [if_neg hlen] at hdoc
              exact fieldsToJ_lookup fds pfs doc n fd pf hdoc hnd' hfd hpf
      · rw [if_neg hrep] at hdoc
        match pf0 with
        | PField.rep _ => simp at hdoc
        | PField.single v =>
            simp only at hdoc
            rcases h1 : fieldValueToJ fd0 v with _ | j <;> rw [h1] at hdoc <;>
              rcases h2 : fieldsToJ fds pfs with _ | r <;> rw [h2] at hdoc <;>
              simp at hdoc
            subst hdoc
            rw [jlookup, if_neg hne]
            exact fieldsToJ_lookup fds pfs r n fd pf h2 hnd' hfd hpf
        | PField.unset =>
            simp only at hdoc
            by_cases hdef : fd0.hasDefault = true
            · rw [if_pos hdef] at hdoc
              rcases h1 : scalarToJ fd0 fd0.defaultV with _ | j <;>
                rw [h1] at hdoc <;>
                rcases h2 : fieldsToJ fds pfs with _ | r <;> rw [h2] at hdoc <;>
                simp at hdoc
              subst hdoc
              rw [jlookup, if_neg hne]
              exact fieldsToJ_lookup fds pfs r n fd pf h2 hnd' hfd hpf
            · rw [if_neg hdef] at hdoc
              exact fieldsToJ_lookup fds pfs doc n fd pf hdoc hnd' hfd hpf

/-- `scalarToJ` only emits number, boolean or string leaves. -/
lemma scalarToJ_shape (fd : FieldDescr) (s : PScalar) (j : JValue)
    (h : scalarToJ fd s = Option.some j) :
    (∃ x, j = JValue.num x) ∨ (∃ b, j = JValue.boolean b) ∨
      (∃ t, j = JValue.str t) := by
  unfold scalarToJ at h
  split at h <;>
    first
      | exact Option.noConfusion h
      | (have h1 := (Option.some.inj h).symm
         subst h1
         first
           | exact Or.inl ⟨_, rfl⟩
           | exact Or.inr (Or.inl ⟨_, rfl⟩)
           | exact Or.inr (Or.inr ⟨_, rfl⟩))

/-- A singular field's emitted value is never an Array. -/
lemma fieldValueToJ_not_arr (fd : FieldDescr) (v : PValue) (j : JValue)
    (h : fieldValueToJ fd v = Option.some j) (es : JValues) :
    j ≠ JValue.arr es := by
  match v with
  | PValue.sc s =>
      rw [fieldValueToJ] at h
      rcases scalarToJ_shape fd s j h with ⟨x, hx⟩ | ⟨b, hb⟩ | ⟨t, ht⟩ <;>
        simp_all
  | PValue.msg (PMessage.mk mfs) =>
      rw [fieldValueToJ] at h
      rcases htyp : fd.typ <;> rw [htyp] at h <;> try simp at h
      rcases h1 : fieldsToJ fd.subDesc.fields mfs with _ | r <;>
        rw [h1] at h <;> simp at h
      simp [← h]

lemma schemaWf_nodup (d : Descriptor) (h : schemaWf d = true) :
    (FieldDescrs.names d.fields).Nodup := by
  match d with
  | Descriptor.mk fs =>
      rw [schemaWf] at h
      rw [Descriptor.fields]
      exact of_decide_eq_true (Bool.and_elim_left h)

lemma toDocument_fieldsToJ (d : Descriptor) (m : PMessage) (doc : JPairs)
    (h : toDocument d m = Option.some (JValue.obj doc)) :
    fieldsToJ d.fields m.fields = Option.some doc := by
  unfold toDocument at h
  rcases h1 : fieldsToJ d.fields m.fields with _ | r <;> rw [h1] at h <;>
    simp at h
  rw [h]

/-- C5: in the document produced by the Message→Document converter, an
unset optional field that declares a default is present with exactly the
rendering of that declared default (never null); an unset optional field
with no declared default is entirely absent. -/
theorem C5_default_materialization (d : Descriptor) (m : PMessage)
    (doc : JPairs) (i : ℕ) (fd : FieldDescr)
    (hsch : schemaWf d = true)
    (hdoc : toDocument d m = Option.some (JValue.obj doc))
    (hfd : d.fields.get? i = Option.some fd)
    (hpf : m.fields.get? i = Option.some PField.unset)
    (hopt : fd.label = FieldLabel.LABEL_OPTIONAL) :
    (fd.hasDefault = true →
      jlookup doc fd.name = scalarToJ fd fd.defaultV ∧
      ∀ j, jlookup doc fd.name = Option.some j → j ≠ JValue.null) ∧
    (fd.hasDefault = false → jlookup doc fd.name = Option.none) := by
  have hrep : fd.isRep = false := by simp [FieldDescr.isRep, hopt]
  have hl := fieldsToJ_lookup d.fields m.fields doc i fd PField.unset
    (toDocument_fieldsToJ d m doc hdoc) (schemaWf_nodup d hsch) hfd hpf
  rw [entryJ] at hl
  rw [hrep] at hl
  simp only [Bool.false_eq_true, if_false] at hl
  constructor
  · intro hdef
    rw [hdef] at hl
    simp only [if_true] at hl
    refine ⟨hl, fun j hj => ?_⟩
    rw [hl] at hj
    rcases scalarToJ_shape fd fd.defaultV j hj with ⟨x, hx⟩ | ⟨b, hb⟩ |
      ⟨t, ht⟩ <;> simp_all
  · intro hdef
    rw [hdef] at hl
    simpa using hl

/-- C5 witness: the all-unset `{ optional double weight [default = 1];
optional string tag }` message — `weight` surfaces as its default,
`tag` is absent. -/
theorem C5_default_materialization_witness :
    (jlookup (JPairs.ofList [("weight",
        JValue.num ⟨((2 ^ 1074 : ℕ) : ℤ)⟩)]) "weight" =
      scalarToJ (FieldDescr.mk "weight" FieldType.TYPE_DOUBLE
        FieldLabel.LABEL_OPTIONAL [] noSub true
        (PScalar.sDouble ⟨((2 ^ 1074 : ℕ) : ℤ)⟩))
        (PScalar.sDouble ⟨((2 ^ 1074 : ℕ) : ℤ)⟩) ∧
      ∀ j, jlookup (JPairs.ofList [("weight",
        JValue.num ⟨((2 ^ 1074 : ℕ) : ℤ)⟩)]) "weight" = Option.some j →
        j ≠ JValue.null) ∧
    jlookup (JPairs.ofList [("weight",
        JValue.num ⟨((2 ^ 1074 : ℕ) : ℤ)⟩)]) "tag" = Option.none :=
  ⟨(C5_default_materialization dOpt mOpt _ 0 _ (by decide) (by rfl) (by rfl)
      (by rfl) (by rfl)).1 (by rfl),
   (C5_default_materialization dOpt mOpt _ 1 _ (by decide) (by rfl) (by rfl)
      (by rfl) (by rfl)).2 (by rfl)⟩

/-- C6: in a produced document a non-repeated field is never mapped to an
Array, a present repeated field is always mapped to an Array, and an
empty repeated field is absent. -/
theorem C6_repeated_iff_array (d : Descriptor) (m : PMessage)
    (doc : JPairs) (i : ℕ) (fd : FieldDescr) (pf : PField)
    (hsch : schemaWf d = true)
    (hdoc : toDocument d m = Option.some (JValue.obj doc))
    (hfd : d.fields.get? i = Option.some fd)
    (hpf : m.fields.get? i = Option.some pf) :
    (fd.isRep = false → ∀ es, jlookup doc fd.name ≠ Option.some (JValue.arr es)) ∧
    (fd.isRep = true → ∀ v, jlookup doc fd.name = Option.some v →
      ∃ es, v = JValue.arr es) ∧
    (fd.isRep = true → pf = PField.rep PValues.nil →
      jlookup doc fd.name = Option.none) := by
  have hl := fieldsToJ_lookup d.fields m.fields doc i fd pf
    (toDocument_fieldsToJ d m doc hdoc) (schemaWf_nodup d hsch) hfd hpf
  rw [entryJ.eq_def] at hl
  refine ⟨fun hrep es hcontra => ?_, fun hrep v hv => ?_, fun hrep hnil => ?_⟩
  · rw [hrep] at hl
    simp only [Bool.false_eq_true, if_false] at hl
    match pf, hl with
    | PField.single v, hl =>
        rw [hcontra] at hl
        exact fieldValueToJ_not_arr fd v (JValue.arr es) hl.symm es rfl
    | PField.unset, hl =>
        by_cases hdef : fd.hasDefault = true
        · rw [hdef] at hl
          simp only [if_true] at hl
          rw [hcontra] at hl
          rcases scalarToJ_shape fd fd.defaultV (JValue.arr es) hl.symm with
            ⟨x, hx⟩ | ⟨b, hb⟩ | ⟨t, ht⟩ <;> simp_all
        · rw [Bool.of_not_eq_true hdef] at hl
          simp only [Bool.false_eq_true, if_false] at hl
          rw [hcontra] at hl
          exact Option.noConfusion hl
    | PField.rep vs, hl =>
        rw [hcontra] at hl
        exact Option.noConfusion hl
  · rw [hrep] at hl
    simp only [if_true] at hl
    match pf, hl with
    | PField.rep vs, hl =>
        have hl : jlookup doc fd.name =
            (if 0 < vs.length then Option.map JValue.arr (repToJ fd vs)
             else Option.none) := hl
        by_cases hlen : 0 < vs.length
        · rw [if_pos hlen] at hl
          rw [hl] at hv
          rcases h1 : repToJ fd vs with _ | js <;> rw [h1] at hv <;>
            simp at hv
          exact ⟨js, hv.symm⟩
        · rw [if_neg hlen] at hl
          rw [hl] at hv
          exact Option.noConfusion hv
    | PField.unset, hl => rw [hl] at hv; exact Option.noConfusion hv
    | PField.single _, hl => rw [hl] at hv; exact Option.noConfusion hv
  · subst hnil
    rw [hrep] at hl
    simpa using hl

/-- C6 witness: `{ repeated int32 xs }` with one element maps `xs` to an
Array; with zero elements `xs` is absent; a set singular string field is
not an Array. -/
theorem C6_repeated_iff_array_witness :
    (∀ es, jlookup (JPairs.ofList [("name", JValue.str "ops")]) "name" ≠
      Option.some (JValue.arr es)) ∧
    (∃ es, JValue.arr (JValues.ofList [JValue.num (intToDouble 3)]) =
      JValue.arr es) ∧
    jlookup JPairs.nil "xs" = Option.none :=
  ⟨(C6_repeated_iff_array dReq
      ⟨PFields.ofList [PField.single (PValue.sc (PScalar.sString "ops"))]⟩
      _ 0 _ _ (by decide) (by rfl) (by rfl) (by rfl)).1 (by rfl),
   (C6_repeated_iff_array dRep
      ⟨PFields.ofList [PField.rep (PValues.ofList
        [PValue.sc (PScalar.sInt32 3)])]⟩
      _ 0 _ _ (by decide) (by rfl) (by rfl) (by rfl)).2.1 (by rfl)
      (JValue.arr (JValues.ofList [JValue.num (intToDouble 3)])) (by rfl),
   (C6_repeated_iff_array dRep
      ⟨PFields.ofList [PField.rep PValues.nil]⟩
      _ 0 _ _ (by decide) (by rfl) (by rfl) (by rfl)).2.2 (by rfl) (by rfl)⟩


/-! ## Exactness lemmas for the modelled floating point conversions -/

lemma log2fuel_le : ∀ (fuel n : ℕ), 1 ≤ n → n ≤ fuel →
    2 ^ log2fuel fuel n ≤ n
  | 0, n, h1, _ => by simpa [log2fuel] using h1
  | fuel + 1, n, h1, hf => by
      rw [log2fuel]
      by_cases h64 : 2 ^ 64 ≤ n
      · rw [if_pos h64]
        have hq1 : 1 ≤ n / 2 ^ 64 :=
          (Nat.le_div_iff_mul_le (by norm_num)).2 (by simpa using h64)
        have hlt : n / 2 ^ 64 < n := Nat.div_lt_self (by omega) (by norm_num)
        have ih := log2fuel_le fuel (n / 2 ^ 64) hq1 (by omega)
        calc 2 ^ (log2fuel fuel (n / 2 ^ 64) + 64)
            = 2 ^ log2fuel fuel (n / 2 ^ 64) * 2 ^ 64 := by rw [pow_add]
          _ ≤ n / 2 ^ 64 * 2 ^ 64 := Nat.mul_le_mul_right _ ih
          _ ≤ n := Nat.div_mul_le_self n (2 ^ 64)
      · rw [if_neg h64]
        by_cases h2 : 2 ≤ n
        · rw [if_pos h2]
          have hq1 : 1 ≤ n / 2 :=
            (Nat.le_div_iff_mul_le (by norm_num)).2 (by simpa using h2)
          have hlt : n / 2 < n := Nat.div_lt_self (by omega) (by norm_num)
          have ih := log2fuel_le fuel (n / 2) hq1 (by omega)
          calc 2 ^ (log2fuel fuel (n / 2) + 1)
              = 2 ^ log2fuel fuel (n / 2) * 2 := by rw [pow_add]; norm_num
            _ ≤ n / 2 * 2 := Nat.mul_le_mul_right _ ih
            _ ≤ n := Nat.div_mul_le_self n 2
        · rw [if_neg h2]
          simpa using h1

lemma nlog2_le (n : ℕ) (h : 1 ≤ n) : 2 ^ nlog2 n ≤ n :=
  log2fuel_le n n h le_rfl

lemma nlog2_lt (n m : ℕ) (h1 : 1 ≤ n) (h : n < 2 ^ m) : nlog2 n < m := by
  by_contra hc
  push_neg at hc
  have h2 : 2 ^ m ≤ 2 ^ nlog2 n := Nat.pow_le_pow_right (by norm_num) hc
  have := nlog2_le n h1
  omega

lemma tzfuel_dvd : ∀ (fuel n : ℕ), 2 ^ tzfuel fuel n ∣ n
  | 0, n => by simpa [tzfuel] using one_dvd n
  | fuel + 1, n => by
      rw [tzfuel]
      by_cases hA : n ≠ 0 ∧ n % 2 ^ 64 = 0
      · rw [if_pos hA]
        have hd : 2 ^ 64 ∣ n := Nat.dvd_of_mod_eq_zero hA.2
        have ih := tzfuel_dvd fuel (n / 2 ^ 64)
        have h2 := mul_dvd_mul ih (dvd_refl (2 ^ 64))
        rw [Nat.div_mul_cancel hd] at h2
        simpa [pow_add] using h2
      · rw [if_neg hA]
        by_cases hB : n ≠ 0 ∧ n % 2 = 0
        · rw [if_pos hB]
          have hd : 2 ∣ n := Nat.dvd_of_mod_eq_zero hB.2
          have ih := tzfuel_dvd fuel (n / 2)
          have h2 := mul_dvd_mul ih (dvd_refl 2)
          rw [Nat.div_mul_cancel hd] at h2
          simpa [pow_add] using h2
        · rw [if_neg hB]
          simpa using one_dvd n

lemma ntz_dvd (n : ℕ) : 2 ^ ntz n ∣ n := tzfuel_dvd n n

lemma rndI_exact (k : ℕ) (c : ℤ) :
    rndI (((2 ^ k : ℕ) : ℤ) * c) k = c := by
  have hd : (0 : ℤ) < ((2 ^ k : ℕ) : ℤ) := by positivity
  unfold rndI
  dsimp only
  rw [Int.mul_fdiv_cancel_left c hd.ne']
  have hz : ((2 ^ k : ℕ) : ℤ) * c - c * ((2 ^ k : ℕ) : ℤ) = 0 := by ring
  rw [hz]
  rw [if_pos (by simpa using hd)]

lemma rndI_mul_exact (n : ℤ) (k : ℕ) (h : ((2 ^ k : ℕ) : ℤ) ∣ n) :
    rndI n k * ((2 ^ k : ℕ) : ℤ) = n := by
  obtain ⟨c, rfl⟩ := h
  rw [rndI_exact k c]
  ring

lemma roundF32_id (x : F64) (h : isRepr32 x = true) : roundF32 x = x := by
  by_cases h0 : x.scaled = 0
  · unfold roundF32
    rw [if_pos h0]
    cases x
    simp_all
  · simp only [isRepr32, decide_eq_true_eq] at h
    rcases h with h | h
    · exact absurd h h0
    · obtain ⟨ht, hm⟩ := h
      have hn0 : x.scaled.natAbs ≠ 0 := by simpa using h0
      have hdvd_t : 2 ^ ntz x.scaled.natAbs ∣ x.scaled.natAbs := ntz_dvd _
      have hlt : x.scaled.natAbs < 2 ^ (ntz x.scaled.natAbs + 24) := by
        calc x.scaled.natAbs
            = x.scaled.natAbs / 2 ^ ntz x.scaled.natAbs *
                2 ^ ntz x.scaled.natAbs := (Nat.div_mul_cancel hdvd_t).symm
          _ < 2 ^ 24 * 2 ^ ntz x.scaled.natAbs :=
              (Nat.mul_lt_mul_right (by positivity)).2 hm
          _ = 2 ^ (ntz x.scaled.natAbs + 24) := by rw [← pow_add]; ring_nf
      have hlog : nlog2 x.scaled.natAbs < ntz x.scaled.natAbs + 24 :=
        nlog2_lt _ _ (Nat.one_le_iff_ne_zero.2 hn0) hlt
      have hk : f32exp x ≤ ntz x.scaled.natAbs := by
        unfold f32exp
        exact max_le ht (by omega)
      have hdvd_k : ((2 ^ f32exp x : ℕ) : ℤ) ∣ x.scaled := by
        have h1 : (2 : ℕ) ^ f32exp x ∣ x.scaled.natAbs :=
          dvd_trans (pow_dvd_pow 2 hk) hdvd_t
        exact Int.dvd_natAbs.1 (Int.natCast_dvd_natCast.2 h1)
      unfold roundF32
      rw [if_neg h0]
      cases x
      simp only [F64.mk.injEq]
      exact rndI_mul_exact _ _ hdvd_k

lemma intToDouble_exact (n : ℤ) (h : n.natAbs ≤ 2 ^ 53) :
    intToDouble n = ⟨n * ((2 ^ 1074 : ℕ) : ℤ)⟩ := by
  unfold intToDouble roundSig
  rw [if_pos h]

lemma truncF64_scaled (n : ℤ) :
    truncF64 ⟨n * ((2 ^ 1074 : ℕ) : ℤ)⟩ = n := by
  unfold truncF64
  exact Int.mul_tdiv_cancel n (by positivity)

lemma truncF64_intToDouble (n : ℤ) (h : n.natAbs ≤ 2 ^ 53) :
    truncF64 (intToDouble n) = n := by
  rw [intToDouble_exact n h, truncF64_scaled]

lemma truncF64_intToDouble32 (n : ℤ) (h : n.natAbs ≤ 2 ^ 31) :
    truncF64 (intToDouble n) = n :=
  truncF64_intToDouble n (le_trans h (by norm_num))

lemma truncF64_intToDouble_toNat (n : ℕ) (h : n ≤ 2 ^ 53) :
    (truncF64 (intToDouble (n : ℤ))).toNat = n := by
  rw [truncF64_intToDouble (n : ℤ) (by simpa using h)]
  simp

lemma truncF64_intToDouble_toNat32 (n : ℕ) (h : n < 2 ^ 32) :
    (truncF64 (intToDouble (n : ℤ))).toNat = n :=
  truncF64_intToDouble_toNat n (by omega)

/-! ## Structural helper lemmas for the round-trip induction -/

lemma PValues.append_nil (vs : PValues) : PValues.append vs PValues.nil = vs := by
  match vs with
  | PValues.nil => rfl
  | PValues.cons v rest => rw [PValues.append, PValues.append_nil rest]

lemma PValues.snoc_append (acc : PValues) (v : PValue) (ws : PValues) :
    PValues.append (acc.snoc v) ws = PValues.append acc (PValues.cons v ws) := by
  match acc with
  | PValues.nil => rfl
  | PValues.cons w rest =>
      rw [PValues.snoc, PValues.append, PValues.snoc_append rest v ws,
        PValues.append]

lemma PFields.get_set_ne (ms : PFields) (i k : ℕ) (v : PField) (h : i ≠ k) :
    PFields.get? (PFields.set ms i v) k = PFields.get? ms k := by
  match ms, i, k with
  | PFields.nil, _, _ => rfl
  | PFields.cons f rest, 0, 0 => exact absurd rfl h
  | PFields.cons f rest, 0, k + 1 => rfl
  | PFields.cons f rest, i + 1, 0 => rfl
  | PFields.cons f rest, i + 1, k + 1 =>
      rw [PFields.set, PFields.get?, PFields.get?]
      exact PFields.get_set_ne rest i k v (by omega)

lemma PFields.set_eq_of_get (ms : PFields) (i : ℕ) (v : PField)
    (h : PFields.get? ms i = Option.some v) : PFields.set ms i v = ms := by
  match ms, i with
  | PFields.nil, i => rfl
  | PFields.cons f rest, 0 =>
      rw [PFields.get?] at h
      rw [PFields.set]
      injection h with h
      rw [h]
  | PFields.cons f rest, i + 1 =>
      rw [PFields.get?] at h
      rw [PFields.set, PFields.set_eq_of_get rest i v h]

lemma initFields_get (fds : FieldDescrs) (j : ℕ) (fd : FieldDescr)
    (h : FieldDescrs.get? fds j = Option.some fd) :
    PFields.get? (initFields fds) j =
      Option.some (if fd.isRep then PField.rep PValues.nil else PField.unset) := by
  match fds, j with
  | FieldDescrs.nil, _ => exact Option.noConfusion h
  | FieldDescrs.cons f rest, 0 =>
      rw [FieldDescrs.get?] at h
      injection h with h
      subst h
      rfl
  | FieldDescrs.cons f rest, j + 1 =>
      rw [FieldDescrs.get?] at h
      rw [initFields, PFields.get?]
      exact initFields_get rest j fd h

lemma findFieldIdx_of_get (fds : FieldDescrs)
    (hnd : (FieldDescrs.names fds).Nodup) (k : ℕ) (fd : FieldDescr)
    (h : FieldDescrs.get? fds k = Option.some fd) :
    findFieldIdx fds fd.name = Option.some k := by
  match fds, k with
  | FieldDescrs.nil, _ => exact Option.noConfusion h
  | FieldDescrs.cons f rest, 0 =>
      rw [FieldDescrs.get?] at h
      injection h with h
      subst h
      rw [findFieldIdx, if_pos rfl]
  | FieldDescrs.cons f rest, k + 1 =>
      rw [FieldDescrs.get?] at h
      rw [FieldDescrs.names, List.nodup_cons] at hnd
      have hmem : fd.name ∈ FieldDescrs.names rest := names_mem_of_get rest k fd h
      have hne : f.name ≠ fd.name := fun hc => hnd.1 (hc ▸ hmem)
      rw [findFieldIdx, if_neg hne,
        findFieldIdx_of_get rest hnd.2 k fd h]
      rfl

lemma setNormFrom_cons (fds : FieldDescrs) (pfs : PFields) (a : PField)
    (ms : PFields) (i : ℕ) :
    setNormFrom (PFields.cons a ms) (i + 1) fds pfs =
      PFields.cons a (setNormFrom ms i fds pfs) := by
  match fds, pfs with
  | FieldDescrs.nil, pfs => cases pfs <;> rfl
  | FieldDescrs.cons fd fds, PFields.nil => rfl
  | FieldDescrs.cons fd fds, PFields.cons pf pfs =>
      rw [setNormFrom, PFields.set, setNormFrom_cons fds pfs a
        (PFields.set ms i (normField fd pf)) (i + 1)]
      rfl

lemma setNormFrom_init (fds : FieldDescrs) (pfs : PFields)
    (hwf : wfFields fds pfs = true) :
    setNormFrom (initFields fds) 0 fds pfs = normFields fds pfs := by
  match fds, pfs with
  | FieldDescrs.nil, pfs =>
      cases pfs with
      | nil => rfl
      | cons pf pfs => simp [wfFields] at hwf
  | FieldDescrs.cons fd fds, PFields.nil => simp [wfFields] at hwf
  | FieldDescrs.cons fd fds, PFields.cons pf pfs =>
      rw [wfFields, Bool.and_eq_true] at hwf
      rw [setNormFrom, initFields, PFields.set, setNormFrom_cons,
        setNormFrom_init fds pfs hwf.2]
      rfl

lemma schemaWf_fields (d : Descriptor) (h : schemaWf d = true) :
    schemaWfFields d.fields = true := by
  match d with
  | Descriptor.mk fs =>
      rw [schemaWf, Bool.and_eq_true] at h
      exact h.2

lemma schemaWfField_default (fd : FieldDescr) (h : schemaWfField fd = true)
    (hd : fd.hasDefault = true) :
    fd.isRep = false ∧ defaultMatches fd = true := by
  match fd with
  | FieldDescr.mk nm t l evs sub hdd dv =>
      have hd' : hdd = true := hd
      subst hd'
      cases t <;> simp_all [schemaWfField]

lemma schemaWfField_msg (fd : FieldDescr) (h : schemaWfField fd = true)
    (ht : fd.typ = FieldType.TYPE_MESSAGE) :
    fd.hasDefault = false ∧ schemaWf fd.subDesc = true := by
  match fd with
  | FieldDescr.mk nm t l evs sub hdd dv =>
      have ht' : t = FieldType.TYPE_MESSAGE := ht
      subst ht'
      simp only [schemaWfField, Bool.and_eq_true, Bool.not_eq_true'] at h
      exact ⟨h.2.1, h.2.2⟩

/-! ## The scalar rows round-trip exactly -/

lemma wfValue_default (fd : FieldDescr) (h : defaultMatches fd = true) :
    wfValue fd (PValue.sc fd.defaultV) = true := by
  match fd with
  | FieldDescr.mk nm t l evs sub hdd dv =>
      cases t <;> cases dv <;>
        simp_all [defaultMatches, wfValue, FieldDescr.typ, FieldDescr.defaultV,
          FieldDescr.enumValues]

set_option maxHeartbeats 1000000 in
lemma scalarToJ_of_wf (fd : FieldDescr) (s : PScalar)
    (h : wfValue fd (PValue.sc s) = true) :
    ∃ j, scalarToJ fd s = Option.some j := by
  match fd with
  | FieldDescr.mk nm t l evs sub hdd dv =>
      cases t <;> cases s <;>
        first
          | exact ⟨_, rfl⟩
          | simp_all [wfValue, scalarToJ, FieldDescr.typ, FieldDescr.enumValues]

set_option maxHeartbeats 1000000 in
lemma applyScalarRT (fd : FieldDescr) (s : PScalar) (j : JValue) (pf : PField)
    (hwf : wfValue fd (PValue.sc s) = true) (hsm : smallScalar s = true)
    (hj : scalarToJ fd s = Option.some j) :
    applyValue fd pf j = (setOrAdd fd pf s, Option.none) := by
  match fd with
  | FieldDescr.mk nm t l evs sub hdd dv =>
      cases t <;> cases s <;>
        first
          | exact Option.noConfusion hj
          | (injection hj with hj1
             subst hj1
             simp_all [wfValue, smallScalar, scalarToJ, applyValue,
               FieldDescr.typ, FieldDescr.enumValues,
               truncF64_intToDouble, truncF64_intToDouble32,
               truncF64_intToDouble_toNat, truncF64_intToDouble_toNat32,
               roundF32_id])

/-! ## The Message to Document conversion is total on well-formed data -/

mutual
theorem toJvalue_total (fd : FieldDescr) (v : PValue)
    (hwf : wfValue fd v = true) (hsf : schemaWfField fd = true) :
    ∃ j, fieldValueToJ fd v = Option.some j := by
  match v with
  | PValue.sc s => exact scalarToJ_of_wf fd s hwf
  | PValue.msg (PMessage.mk mfs) =>
      have hmsg : fd.typ = FieldType.TYPE_MESSAGE ∧
          wfFields fd.subDesc.fields mfs = true := by
        rcases htyp : fd.typ <;> rw [wfValue, htyp] at hwf <;> simp_all
      obtain ⟨doc, hdoc⟩ := toJfields_total fd.subDesc.fields mfs hmsg.2
        (schemaWf_fields _ (schemaWfField_msg fd hsf hmsg.1).2)
      rw [fieldValueToJ, hmsg.1, hdoc]
      exact ⟨_, rfl⟩
termination_by sizeOf v

theorem toJrep_total (fd : FieldDescr) (vs : PValues)
    (hwf : wfValues fd vs = true) (hsf : schemaWfField fd = true) :
    ∃ js, repToJ fd vs = Option.some js := by
  match vs with
  | PValues.nil => exact ⟨JValues.nil, rfl⟩
  | PValues.cons v rest =>
      rw [wfValues, Bool.and_eq_true] at hwf
      obtain ⟨j, hj⟩ := toJvalue_total fd v hwf.1 hsf
      obtain ⟨js, hjs⟩ := toJrep_total fd rest hwf.2 hsf
      rw [repToJ, hj, hjs]
      exact ⟨_, rfl⟩
termination_by sizeOf vs

theorem toJfields_total (fds : FieldDescrs) (pfs : PFields)
    (hwf : wfFields fds pfs = true) (hsf : schemaWfFields fds = true) :
    ∃ doc, fieldsToJ fds pfs = Option.some doc := by
  match fds, pfs with
  | FieldDescrs.nil, pfs => exact ⟨JPairs.nil, by cases pfs <;> rfl⟩
  | FieldDescrs.cons fd fds, PFields.nil => simp [wfFields] at hwf
  | FieldDescrs.cons fd fds, PFields.cons pf pfs =>
      rw [wfFields, Bool.and_eq_true] at hwf
      rw [schemaWfFields, Bool.and_eq_true] at hsf
      obtain ⟨r, hr⟩ := toJfields_total fds pfs hwf.2 hsf.2
      rw [fieldsToJ.eq_def]
      simp only
      have h1 := hwf.1
      by_cases hrep : fd.isRep = true
      · rw [if_pos hrep]
        cases pf with
        | unset => rw [wfField, hrep] at h1; exact Bool.noConfusion h1
        | single v =>
            rw [wfField, hrep] at h1
            exact Bool.noConfusion h1
        | rep vs =>
            rw [wfField, Bool.and_eq_true] at h1
            show ∃ doc,
              (if 0 < vs.length then
                match repToJ fd vs, fieldsToJ fds pfs with
                | Option.some js, Option.some r =>
                    Option.some (JPairs.cons fd.name (JValue.arr js) r)
                | _, _ => Option.none
              else fieldsToJ fds pfs) = Option.some doc
            by_cases hlen : 0 < vs.length
            · rw [if_pos hlen]
              obtain ⟨js, hjs⟩ := toJrep_total fd vs h1.2 hsf.1
              rw [hjs, hr]
              exact ⟨_, rfl⟩
            · rw [if_neg hlen]
              exact ⟨r, hr⟩
      · rw [if_neg hrep]
        cases pf with
        | rep vs =>
            rw [wfField, Bool.and_eq_true] at h1
            rw [h1.1] at hrep
            exact absurd rfl hrep
        | single v =>
            rw [wfField, Bool.and_eq_true] at h1
            show ∃ doc,
              (match fieldValueToJ fd v, fieldsToJ fds pfs with
              | Option.some j, Option.some r =>
                  Option.some (JPairs.cons fd.name j r)
              | _, _ => Option.none) = Option.some doc
            obtain ⟨j, hj⟩ := toJvalue_total fd v h1.2 hsf.1
            rw [hj, hr]
            exact ⟨_, rfl⟩
        | unset =>
            show ∃ doc,
              (if fd.hasDefault then
                match scalarToJ fd fd.defaultV, fieldsToJ fds pfs with
                | Option.some j, Option.some r =>
                    Option.some (JPairs.cons fd.name j r)
                | _, _ => Option.none
              else fieldsToJ fds pfs) = Option.some doc
            by_cases hdef : fd.hasDefault = true
            · rw [if_pos hdef]
              obtain ⟨j, hj⟩ := scalarToJ_of_wf fd fd.defaultV
                (wfValue_default fd (schemaWfField_default fd hsf.1 hdef).2)
              rw [hj, hr]
              exact ⟨_, rfl⟩
            · rw [if_neg hdef]
              exact ⟨r, hr⟩
termination_by sizeOf pfs
end

/-! ## The Document to Message converter reconstructs the normalized state -/

mutual
theorem applyValueRT (fd : FieldDescr) (v : PValue) (j : JValue) (pf : PField)
    (hj : fieldValueToJ fd v = Option.some j)
    (hwf : wfValue fd v = true) (hsm : small64Value fd v = true)
    (hsf : schemaWfField fd = true)
    (hpf : fd.isRep = false → pf = PField.unset) :
    applyValue fd pf j =
      (if fd.isRep = true then
        PField.rep ((repList pf).snoc (normValue fd v))
       else PField.single (normValue fd v), Option.none) := by
  cases v with
  | sc s =>
      have hj' : scalarToJ fd s = Option.some j := hj
      rw [applyScalarRT fd s j pf hwf hsm hj', setOrAdd, normValue]
  | msg m =>
      cases m with
      | mk mfs =>
          have hmsg : fd.typ = FieldType.TYPE_MESSAGE ∧
              wfFields fd.subDesc.fields mfs = true := by
            rcases htyp : fd.typ <;> rw [wfValue, htyp] at hwf <;> simp_all
          have hsub := schemaWfField_msg fd hsf hmsg.1
          have hsmf : small64Fields fd.subDesc.fields mfs = true := hsm
          have hnd : (FieldDescrs.names fd.subDesc.fields).Nodup :=
            schemaWf_nodup fd.subDesc hsub.2
          rw [fieldValueToJ, hmsg.1] at hj
          rcases ho : fieldsToJ fd.subDesc.fields mfs with _ | o <;> rw [ho] at hj
          · exact Option.noConfusion hj
          injection hj with hj1
          subst hj1
          have hparse := RT_fields fd.subDesc fd.subDesc.fields mfs 0
            (initFields fd.subDesc.fields) o hnd
            (fun k => by rw [Nat.zero_add])
            (fun k fdk hk => by rw [Nat.zero_add]; exact initFields_get _ k fdk hk)
            ho hmsg.2 hsmf (schemaWf_fields _ hsub.2)
          rw [setNormFrom_init _ _ hmsg.2] at hparse
          rw [applyValue, hmsg.1]
          by_cases hrep : fd.isRep = true
          · rw [if_pos hrep, if_pos hrep]
            rw [emptyMsg, hparse]
            rfl
          · rw [if_neg hrep, if_neg hrep]
            rw [hpf (Bool.of_not_eq_true hrep)]
            have hmut : mutableSub fd PField.unset = emptyMsg fd.subDesc := rfl
            rw [hmut, emptyMsg, hparse]
            rfl
termination_by sizeOf v

theorem applyArrRT (fd : FieldDescr) (vs : PValues) (js : JValues)
    (hjs : repToJ fd vs = Option.some js)
    (hwf : wfValues fd vs = true) (hsm : small64Values fd vs = true)
    (hsf : schemaWfField fd = true) (hrep : fd.isRep = true) (acc : PValues) :
    applyArr fd (PField.rep acc) js =
      (PField.rep (PValues.append acc (normValues fd vs)), Option.none) := by
  cases vs with
  | nil =>
      have hjs' : Option.some JValues.nil = Option.some js := hjs
      injection hjs' with h
      subst h
      rw [normValues, PValues.append_nil]
      rfl
  | cons v rest =>
      rw [wfValues, Bool.and_eq_true] at hwf
      rw [small64Values, Bool.and_eq_true] at hsm
      rw [repToJ] at hjs
      rcases h1 : fieldValueToJ fd v with _ | j <;> rw [h1] at hjs
      · exact Option.noConfusion hjs
      rcases h2 : repToJ fd rest with _ | js2 <;> rw [h2] at hjs
      · exact Option.noConfusion hjs
      injection hjs with hjs1
      subst hjs1
      rw [applyArr]
      have hv := applyValueRT fd v j (PField.rep acc) h1 hwf.1 hsm.1 hsf
        (fun hf => by rw [hf] at hrep; exact Bool.noConfusion hrep)
      rw [if_pos hrep] at hv
      rw [hv]
      have ih := applyArrRT fd rest js2 h2 hwf.2 hsm.2 hsf hrep
        (PValues.snoc acc (normValue fd v))
      rw [PValues.snoc_append] at ih
      rw [normValues]
      exact ih
termination_by sizeOf vs

theorem RT_fields (d : Descriptor) (fds : FieldDescrs) (pfs : PFields)
    (i : ℕ) (ms : PFields) (doc : JPairs)
    (hnd : (FieldDescrs.names d.fields).Nodup)
    (hsfx : ∀ k, FieldDescrs.get? fds k = FieldDescrs.get? d.fields (i + k))
    (hms : ∀ k fdk, FieldDescrs.get? fds k = Option.some fdk →
      PFields.get? ms (i + k) = Option.some
        (if fdk.isRep then PField.rep PValues.nil else PField.unset))
    (hdoc : fieldsToJ fds pfs = Option.some doc)
    (hwf : wfFields fds pfs = true)
    (hsm : small64Fields fds pfs = true)
    (hsf : schemaWfFields fds = true) :
    parseFields d ⟨ms⟩ doc = (⟨setNormFrom ms i fds pfs⟩, Option.none) := by
  cases fds with
  | nil =>
      have hdoc' : Option.some JPairs.nil = Option.some doc := by
        cases pfs <;> exact hdoc
      injection hdoc' with h
      subst h
      cases pfs <;> rfl
  | cons fd fds =>
      cases pfs with
      | nil => simp [wfFields] at hwf
      | cons pf pfs =>
          rw [wfFields, Bool.and_eq_true] at hwf
          rw [small64Fields, Bool.and_eq_true] at hsm
          rw [schemaWfFields, Bool.and_eq_true] at hsf
          have hfd0 : FieldDescrs.get? (FieldDescrs.cons fd fds) 0 =
            Option.some fd := rfl
          have hfdabs : FieldDescrs.get? d.fields i = Option.some fd := by
            simpa [FieldDescrs.get?] using (hsfx 0).symm
          have hidx : findFieldIdx d.fields fd.name = Option.some i :=
            findFieldIdx_of_get d.fields hnd i fd hfdabs
          have hms0 : PFields.get? ms i = Option.some
              (if fd.isRep then PField.rep PValues.nil else PField.unset) := by
            simpa using hms 0 fd hfd0
          have hsfx' : ∀ k, FieldDescrs.get? fds k =
              FieldDescrs.get? d.fields (i + 1 + k) := by
            intro k
            have h := hsfx (k + 1)
            rw [show i + (k + 1) = i + 1 + k from by omega] at h
            exact h
          have hmsSet : ∀ (X : PField) k fdk,
              FieldDescrs.get? fds k = Option.some fdk →
              PFields.get? (PFields.set ms i X) (i + 1 + k) = Option.some
                (if fdk.isRep then PField.rep PValues.nil else PField.unset) := by
            intro X k fdk hk
            rw [PFields.get_set_ne ms i (i + 1 + k) X (by omega)]
            rw [show i + 1 + k = i + (k + 1) from by omega]
            exact hms (k + 1) fdk hk
          have hmsKeep : ∀ k fdk, FieldDescrs.get? fds k = Option.some fdk →
              PFields.get? ms (i + 1 + k) = Option.some
                (if fdk.isRep then PField.rep PValues.nil else PField.unset) := by
            intro k fdk hk
            rw [show i + 1 + k = i + (k + 1) from by omega]
            exact hms (k + 1) fdk hk
          have h1 := hwf.1
          rw [fieldsToJ.eq_def] at hdoc
          simp only at hdoc
          by_cases hrep : fd.isRep = true
          · rw [if_pos hrep] at hdoc
            cases pf with
            | unset => rw [wfField, hrep] at h1; exact Bool.noConfusion h1
            | single v => rw [wfField, hrep] at h1; exact Bool.noConfusion h1
            | rep vs =>
                rw [wfField, Bool.and_eq_true] at h1
                have hsmv : small64Values fd vs = true := hsm.1
                have hdoc' : (if 0 < vs.length then
                    match repToJ fd vs, fieldsToJ fds pfs with
                    | Option.some js, Option.some r =>
                        Option.some (JPairs.cons fd.name (JValue.arr js) r)
                    | _, _ => Option.none
                  else fieldsToJ fds pfs) = Option.some doc := hdoc
                have hms0R : PFields.get? ms i =
                    Option.some (PField.rep PValues.nil) := by
                  rw [hms0, if_pos hrep]
                by_cases hlen : 0 < vs.length
                · rw [if_pos hlen] at hdoc'
                  rcases hjs : repToJ fd vs with _ | js <;> rw [hjs] at hdoc'
                  · exact Option.noConfusion hdoc'
                  rcases hr : fieldsToJ fds pfs with _ | r <;> rw [hr] at hdoc'
                  · exact Option.noConfusion hdoc'
                  injection hdoc' with hdd
                  subst hdd
                  rw [parseFields.eq_def]
                  dsimp only [PMessage.fields]
                  rw [hidx]
                  dsimp only
                  rw [hfdabs]
                  dsimp only [Option.getD]
                  rw [hms0R]
                  dsimp only [Option.getD]
                  rw [applyValue, if_pos hrep]
                  rw [applyArrRT fd vs js hjs h1.2 hsmv hsf.1 hrep PValues.nil]
                  dsimp only
                  rw [setNormFrom]
                  exact RT_fields d fds pfs (i + 1)
                    (PFields.set ms i (PField.rep (normValues fd vs))) r hnd
                    hsfx' (hmsSet _) hr hwf.2 hsm.2 hsf.2
                · rw [if_neg hlen] at hdoc'
                  cases vs with
                  | cons w ws => exact absurd (by rw [PValues.length]; omega) hlen
                  | nil =>
                      rw [setNormFrom]
                      have hset : PFields.set ms i
                          (normField fd (PField.rep PValues.nil)) = ms :=
                        PFields.set_eq_of_get ms i _ (by rw [hms0R]; rfl)
                      rw [hset]
                      exact RT_fields d fds pfs (i + 1) ms doc hnd hsfx' hmsKeep
                        hdoc' hwf.2 hsm.2 hsf.2
          · rw [if_neg hrep] at hdoc
            have hrf : fd.isRep = false := Bool.of_not_eq_true hrep
            have hms0U : PFields.get? ms i = Option.some PField.unset := by
              rw [hms0, if_neg hrep]
            cases pf with
            | rep vs =>
                rw [wfField, Bool.and_eq_true] at h1
                rw [h1.1] at hrep
                exact absurd rfl hrep
            | single v =>
                rw [wfField, Bool.and_eq_true] at h1
                have hsmv : small64Value fd v = true := hsm.1
                have hdoc' : (match fieldValueToJ fd v, fieldsToJ fds pfs with
                  | Option.some jv, Option.some r =>
                      Option.some (JPairs.cons fd.name jv r)
                  | _, _ => Option.none) = Option.some doc := hdoc
                rcases hjv : fieldValueToJ fd v with _ | jv <;> rw [hjv] at hdoc'
                · exact Option.noConfusion hdoc'
                rcases hr : fieldsToJ fds pfs with _ | r <;> rw [hr] at hdoc'
                · exact Option.noConfusion hdoc'
                injection hdoc' with hdd
                subst hdd
                rw [parseFields.eq_def]
                dsimp only [PMessage.fields]
                rw [hidx]
                dsimp only
                rw [hfdabs]
                dsimp only [Option.getD]
                rw [hms0U]
                dsimp only [Option.getD]
                rw [applyValueRT fd v jv PField.unset hjv h1.2 hsmv hsf.1
                  (fun _ => rfl)]
                rw [if_neg hrep]
                dsimp only
                rw [setNormFrom]
                exact RT_fields d fds pfs (i + 1)
                  (PFields.set ms i (PField.single (normValue fd v))) r hnd
                  hsfx' (hmsSet _) hr hwf.2 hsm.2 hsf.2
            | unset =>
                have hdoc' : (if fd.hasDefault then
                    match scalarToJ fd fd.defaultV, fieldsToJ fds pfs with
                    | Option.some jv, Option.some r =>
                        Option.some (JPairs.cons fd.name jv r)
                    | _, _ => Option.none
                  else fieldsToJ fds pfs) = Option.some doc := hdoc
                by_cases hdef : fd.hasDefault = true
                · rw [if_pos hdef] at hdoc'
                  rcases hjv : scalarToJ fd fd.defaultV with _ | jv <;>
                    rw [hjv] at hdoc'
                  · exact Option.noConfusion hdoc'
                  rcases hr : fieldsToJ fds pfs with _ | r <;> rw [hr] at hdoc'
                  · exact Option.noConfusion hdoc'
                  injection hdoc' with hdd
                  subst hdd
                  have hsmdv : smallScalar fd.defaultV = true := by
                    have h0 : (if fd.hasDefault && !fd.isRep then
                        smallScalar fd.defaultV else true) = true := hsm.1
                    rw [hdef, hrf] at h0
                    simpa using h0
                  rw [parseFields.eq_def]
                  dsimp only [PMessage.fields]
                  rw [hidx]
                  dsimp only
                  rw [hfdabs]
                  dsimp only [Option.getD]
                  rw [hms0U]
                  dsimp only [Option.getD]
                  rw [applyScalarRT fd fd.defaultV jv PField.unset
                    (wfValue_default fd (schemaWfField_default fd hsf.1 hdef).2)
                    hsmdv hjv]
                  rw [setOrAdd, if_neg hrep]
                  dsimp only
                  rw [setNormFrom]
                  have hnf : normField fd PField.unset =
                      PField.single (PValue.sc fd.defaultV) := by
                    rw [normField, if_pos (by simp [hrf, hdef])]
                  rw [hnf]
                  exact RT_fields d fds pfs (i + 1)
                    (PFields.set ms i (PField.single (PValue.sc fd.defaultV)))
                    r hnd hsfx' (hmsSet _) hr hwf.2 hsm.2 hsf.2
                · rw [if_neg hdef] at hdoc'
                  rw [setNormFrom]
                  have hdf : fd.hasDefault = false := Bool.of_not_eq_true hdef
                  have hnf : normField fd PField.unset = PField.unset := by
                    rw [normField, if_neg (by simp [hdf])]
                  have hset : PFields.set ms i (normField fd PField.unset) = ms := by
                    rw [hnf]
                    exact PFields.set_eq_of_get ms i _ hms0U
                  rw [hset]
                  exact RT_fields d fds pfs (i + 1) ms doc hnd hsfx' hmsKeep
                    hdoc' hwf.2 hsm.2 hsf.2
termination_by sizeOf pfs
end

/-! ## Normalization preserves initialization and getter-observable state -/

lemma schemaWfField_group (fd : FieldDescr) (h : schemaWfField fd = true)
    (ht : fd.typ = FieldType.TYPE_GROUP) : fd.hasDefault = false := by
  match fd with
  | FieldDescr.mk nm t l evs sub hdd dv =>
      have ht' : t = FieldType.TYPE_GROUP := ht
      subst ht'
      simp only [schemaWfField, Bool.and_eq_true, Bool.not_eq_true'] at h
      exact h.2

mutual
theorem isInitFields_norm (fds : FieldDescrs) (pfs : PFields)
    (h : isInitFields fds pfs = true) :
    isInitFields fds (normFields fds pfs) = true := by
  cases fds with
  | nil => cases pfs <;> rfl
  | cons fd fds =>
      cases pfs with
      | nil => rfl
      | cons pf pfs =>
          cases pf with
          | unset =>
              have h' : (decide (fd.label ≠ FieldLabel.LABEL_REQUIRED) &&
                  isInitFields fds pfs) = true := h
              rw [Bool.and_eq_true] at h'
              by_cases hc : (!fd.isRep && fd.hasDefault) = true
              · have hnf : normField fd PField.unset =
                    PField.single (PValue.sc fd.defaultV) := by
                  rw [normField, if_pos hc]
                show isInitFields (FieldDescrs.cons fd fds)
                  (PFields.cons (normField fd PField.unset)
                    (normFields fds pfs)) = true
                rw [hnf]
                show (valueInit fd (PValue.sc fd.defaultV) &&
                  isInitFields fds (normFields fds pfs)) = true
                rw [Bool.and_eq_true]
                exact ⟨rfl, isInitFields_norm fds pfs h'.2⟩
              · have hnf : normField fd PField.unset = PField.unset := by
                  rw [normField, if_neg hc]
                show isInitFields (FieldDescrs.cons fd fds)
                  (PFields.cons (normField fd PField.unset)
                    (normFields fds pfs)) = true
                rw [hnf]
                show (decide (fd.label ≠ FieldLabel.LABEL_REQUIRED) &&
                  isInitFields fds (normFields fds pfs)) = true
                rw [Bool.and_eq_true]
                exact ⟨h'.1, isInitFields_norm fds pfs h'.2⟩
          | single v =>
              have h' : (valueInit fd v && isInitFields fds pfs) = true := h
              rw [Bool.and_eq_true] at h'
              show (valueInit fd (normValue fd v) &&
                isInitFields fds (normFields fds pfs)) = true
              rw [Bool.and_eq_true]
              exact ⟨valueInit_norm fd v h'.1, isInitFields_norm fds pfs h'.2⟩
          | rep vs =>
              have h' : (valuesInit fd vs && isInitFields fds pfs) = true := h
              rw [Bool.and_eq_true] at h'
              show (valuesInit fd (normValues fd vs) &&
                isInitFields fds (normFields fds pfs)) = true
              rw [Bool.and_eq_true]
              exact ⟨valuesInit_norm fd vs h'.1, isInitFields_norm fds pfs h'.2⟩
termination_by sizeOf pfs

theorem valuesInit_norm (fd : FieldDescr) (vs : PValues)
    (h : valuesInit fd vs = true) :
    valuesInit fd (normValues fd vs) = true := by
  cases vs with
  | nil => rfl
  | cons v rest =>
      rw [valuesInit, Bool.and_eq_true] at h
      rw [normValues, valuesInit, Bool.and_eq_true]
      exact ⟨valueInit_norm fd v h.1, valuesInit_norm fd rest h.2⟩
termination_by sizeOf vs

theorem valueInit_norm (fd : FieldDescr) (v : PValue)
    (h : valueInit fd v = true) :
    valueInit fd (normValue fd v) = true := by
  cases v with
  | sc s => rfl
  | msg m =>
      cases m with
      | mk mfs => exact isInitFields_norm fd.subDesc.fields mfs h
termination_by sizeOf v
end

lemma normField_unset (fd : FieldDescr) : normField fd PField.unset =
    (if !fd.isRep && fd.hasDefault then PField.single (PValue.sc fd.defaultV)
     else PField.unset) := rfl

lemma normField_single (fd : FieldDescr) (v : PValue) :
    normField fd (PField.single v) = PField.single (normValue fd v) := rfl

lemma normField_rep (fd : FieldDescr) (vs : PValues) :
    normField fd (PField.rep vs) = PField.rep (normValues fd vs) := rfl

lemma obsEqField_uu (fd : FieldDescr) :
    obsEqField fd PField.unset PField.unset =
      (if fd.isRep then false
       else match fd.typ with
         | FieldType.TYPE_MESSAGE => true
         | FieldType.TYPE_GROUP => true
         | _ => decide (getScalar fd PField.unset =
                  getScalar fd PField.unset)) := rfl

lemma obsEqField_us (fd : FieldDescr) (w : PValue) :
    obsEqField fd PField.unset (PField.single w) =
      (if fd.isRep then false
       else match fd.typ with
         | FieldType.TYPE_MESSAGE => false
         | FieldType.TYPE_GROUP => false
         | _ => decide (getScalar fd PField.unset =
                  getScalar fd (PField.single w))) := rfl

lemma obsEqField_ss (fd : FieldDescr) (v w : PValue) :
    obsEqField fd (PField.single v) (PField.single w) =
      (if fd.isRep then false
       else match fd.typ with
         | FieldType.TYPE_MESSAGE => obsEqValue fd v w
         | FieldType.TYPE_GROUP => obsEqValue fd v w
         | _ => decide (getScalar fd (PField.single v) =
                  getScalar fd (PField.single w))) := rfl

lemma obsEqField_rr (fd : FieldDescr) (vs ws : PValues) :
    obsEqField fd (PField.rep vs) (PField.rep ws) =
      (if fd.isRep then obsEqValues fd vs ws else false) := rfl

mutual
theorem obsEqFields_norm (fds : FieldDescrs) (pfs : PFields)
    (hwf : wfFields fds pfs = true) (hsf : schemaWfFields fds = true) :
    obsEqFields fds pfs (normFields fds pfs) = true := by
  cases fds with
  | nil => cases pfs <;> rfl
  | cons fd fds =>
      cases pfs with
      | nil => simp [wfFields] at hwf
      | cons pf pfs =>
          rw [wfFields, Bool.and_eq_true] at hwf
          rw [schemaWfFields, Bool.and_eq_true] at hsf
          rw [normFields, obsEqFields, Bool.and_eq_true]
          exact ⟨obsEqField_norm fd pf hwf.1 hsf.1,
            obsEqFields_norm fds pfs hwf.2 hsf.2⟩
termination_by sizeOf pfs

theorem obsEqField_norm (fd : FieldDescr) (pf : PField)
    (hwf : wfField fd pf = true) (hsf : schemaWfField fd = true) :
    obsEqField fd pf (normField fd pf) = true := by
  cases pf with
  | unset =>
      have hrf : fd.isRep = false := by
        rw [wfField] at hwf
        simpa using hwf
      rw [normField_unset]
      by_cases hc : (!fd.isRep && fd.hasDefault) = true
      · rw [if_pos hc]
        have hdef : fd.hasDefault = true := by
          rw [Bool.and_eq_true] at hc
          exact hc.2
        rw [obsEqField_us, if_neg (by simp [hrf])]
        rcases htyp : fd.typ <;>
          first
            | exact absurd (schemaWfField_msg fd hsf htyp).1 (by simp [hdef])
            | exact absurd (schemaWfField_group fd hsf htyp) (by simp [hdef])
            | simp [getScalar, hdef]
      · rw [if_neg hc]
        rw [obsEqField_uu, if_neg (by simp [hrf])]
        rcases htyp : fd.typ <;> simp
  | single v =>
      have hrf : fd.isRep = false := by
        rw [wfField, Bool.and_eq_true] at hwf
        simpa using hwf.1
      have hwv : wfValue fd v = true := by
        rw [wfField, Bool.and_eq_true] at hwf
        exact hwf.2
      cases v with
      | sc s =>
          rw [normField_single]
          rw [show normValue fd (PValue.sc s) = PValue.sc s from rfl]
          rw [obsEqField_ss, if_neg (by simp [hrf])]
          rcases htyp : fd.typ <;> simp [obsEqValue, getScalar]
      | msg m =>
          cases m with
          | mk mfs =>
              have hmsg : fd.typ = FieldType.TYPE_MESSAGE ∧
                  wfFields fd.subDesc.fields mfs = true := by
                rcases htyp : fd.typ <;> rw [wfValue, htyp] at hwv <;> simp_all
              have hrec := obsEqFields_norm fd.subDesc.fields mfs hmsg.2
                (schemaWf_fields _ (schemaWfField_msg fd hsf hmsg.1).2)
              rw [normField_single]
              rw [show normValue fd (PValue.msg ⟨mfs⟩) =
                PValue.msg ⟨normFields fd.subDesc.fields mfs⟩ from rfl]
              rw [obsEqField_ss, if_neg (by simp [hrf]), hmsg.1]
              show obsEqValue fd (PValue.msg ⟨mfs⟩)
                (PValue.msg ⟨normFields fd.subDesc.fields mfs⟩) = true
              rw [show obsEqValue fd (PValue.msg ⟨mfs⟩)
                  (PValue.msg ⟨normFields fd.subDesc.fields mfs⟩) =
                obsEqFields fd.subDesc.fields mfs
                  (normFields fd.subDesc.fields mfs) from rfl]
              exact hrec
  | rep vs =>
      have hri : fd.isRep = true := by
        rw [wfField, Bool.and_eq_true] at hwf
        exact hwf.1
      have hwv : wfValues fd vs = true := by
        rw [wfField, Bool.and_eq_true] at hwf
        exact hwf.2
      rw [normField_rep, obsEqField_rr, if_pos hri]
      exact obsEqValues_norm fd vs hwv hsf
termination_by sizeOf pf

theorem obsEqValues_norm (fd : FieldDescr) (vs : PValues)
    (hwf : wfValues fd vs = true) (hsf : schemaWfField fd = true) :
    obsEqValues fd vs (normValues fd vs) = true := by
  cases vs with
  | nil => rfl
  | cons v rest =>
      rw [wfValues, Bool.and_eq_true] at hwf
      rw [normValues, obsEqValues, Bool.and_eq_true]
      exact ⟨obsEqValue_norm fd v hwf.1 hsf,
        obsEqValues_norm fd rest hwf.2 hsf⟩
termination_by sizeOf vs

theorem obsEqValue_norm (fd : FieldDescr) (v : PValue)
    (hwf : wfValue fd v = true) (hsf : schemaWfField fd = true) :
    obsEqValue fd v (normValue fd v) = true := by
  cases v with
  | sc s => simp [normValue, obsEqValue]
  | msg m =>
      cases m with
      | mk mfs =>
          have hmsg : fd.typ = FieldType.TYPE_MESSAGE ∧
              wfFields fd.subDesc.fields mfs = true := by
            rcases htyp : fd.typ <;> rw [wfValue, htyp] at hwf <;> simp_all
          have hrec := obsEqFields_norm fd.subDesc.fields mfs hmsg.2
            (schemaWf_fields _ (schemaWfField_msg fd hsf hmsg.1).2)
          simp [normValue, obsEqValue, hrec]
termination_by sizeOf v
end

/-- C1 counterexample: the initialized, well-formed `dI64` instance holding
`x = 2 ^ 53 + 1` converts to a Document whose Number carries the rounded
double `2 ^ 53` (the `int64 → double` conversion of `JSON::Number` is lossy
above `2 ^ 53`), and parsing that Document back succeeds but yields
`x = 2 ^ 53`: the round-tripped message is not field-equal to the
original, refuting the unconditional round-trip claim. -/
theorem C1_counterexample_large_int64 :
    schemaWf dI64 = true ∧ wfMsg dI64 mBig = true ∧
    isInit dI64 mBig = true ∧
    toDocument dI64 mBig = Option.some (JValue.obj (JPairs.cons "x"
      (JValue.num ⟨(2 ^ 53) * ((2 ^ 1074 : ℕ) : ℤ)⟩) JPairs.nil)) ∧
    parseTop dI64 (JValue.obj (JPairs.cons "x"
      (JValue.num ⟨(2 ^ 53) * ((2 ^ 1074 : ℕ) : ℤ)⟩) JPairs.nil)) =
      Except.ok ⟨PFields.ofList
        [PField.single (PValue.sc (PScalar.sInt64 (2 ^ 53)))]⟩ ∧
    obsEqMsg dI64 mBig ⟨PFields.ofList
      [PField.single (PValue.sc (PScalar.sInt64 (2 ^ 53)))]⟩ = false := by
  refine ⟨by decide, by decide, by decide, ?_, by decide, by decide⟩
  decide

/-- C1 (amended): for every schema-well-formed descriptor and well-formed,
initialized message whose 64-bit integer values (including materialized
defaults) have magnitude at most `2 ^ 53`, converting to a Document and
parsing back succeeds and yields exactly the normalization of the message
(every unset singular field with a declared default becomes set to that
default), which is field-equal to the original — with exact equality for
double/float fields.  Without the `2 ^ 53` bound the claim is refuted by
`C1_counterexample_large_int64`. -/
theorem C1_roundtrip (d : Descriptor) (m : PMessage)
    (hsch : schemaWf d = true) (hwf : wfMsg d m = true)
    (hinit : isInit d m = true) (hsm : small64 d m = true) :
    ∃ doc : JPairs, toDocument d m = Option.some (JValue.obj doc) ∧
      parseTop d (JValue.obj doc) = Except.ok (normMsg d m) ∧
      obsEqMsg d m (normMsg d m) = true := by
  obtain ⟨doc, hdoc⟩ := toJfields_total d.fields m.fields hwf
    (schemaWf_fields d hsch)
  have hparse := RT_fields d d.fields m.fields 0 (initFields d.fields) doc
    (schemaWf_nodup d hsch)
    (fun k => by rw [Nat.zero_add])
    (fun k fdk hk => by rw [Nat.zero_add]; exact initFields_get _ k fdk hk)
    hdoc hwf hsm (schemaWf_fields d hsch)
  rw [setNormFrom_init _ _ hwf] at hparse
  refine ⟨doc, ?_, ?_, ?_⟩
  · rw [toDocument, hdoc]
    rfl
  · rw [parseTop]
    rw [emptyMsg, hparse]
    have hini : isInit d (normMsg d m) = true :=
      isInitFields_norm d.fields m.fields hinit
    rw [show isInit d (PMessage.mk (normFields d.fields m.fields)) = true
      from hini]
    rfl
  · exact obsEqFields_norm d.fields m.fields hwf (schemaWf_fields d hsch)

/-- C1 witness: the round trip on the mixed schema `dMix` instance `mMix`
(set string, defaulted unset double, repeated int32, nested message, enum). -/
theorem C1_roundtrip_witness :
    ∃ doc : JPairs, toDocument dMix mMix = Option.some (JValue.obj doc) ∧
      parseTop dMix (JValue.obj doc) = Except.ok (normMsg dMix mMix) ∧
      obsEqMsg dMix mMix (normMsg dMix mMix) = true :=
  C1_roundtrip dMix mMix (by decide) (by decide) (by decide) (by decide)

end StoutPB
